import Mathlib

/-!
Formal model of the narui incremental re-evaluation core, shallowly embedding
`src/heart/context.rs` (versioned state store `PatchedTree`, fragment arena
`FragmentStore`, hook-key derivation) and `src/heart/delta_eval.rs`
(`EvaluatorInner`: `update`, `evaluate_unconditional`, `re_eval_fragment`,
`remove_tree`, `check_unique_keys_children`).

Machine integers are modelled as `Nat` with explicit `% 2 ^ w` where wraparound
matters; type-erased boxed values (`TreeItem`, generator arguments) are a type
parameter `V` resp. `Nat`; fallible paths (panics, `unwrap`) return
`Except`/`Option`; recursion that is not structural in the Rust source is given
explicit fuel.
-/

/-- Keys are opaque unique identities (`Key` in the source, an id counter). -/
abbrev Key := Nat

/-- Arena indices (`rutter_layout::Idx` and `freelist` indices). -/
abbrev Idx := Nat

/-- `HookKey = (Key, u16)`: 15 bits of slot index, top bit set if external. -/
abbrev HookKey := Key × Nat

/-- `HookRef = (HookKey, Idx)`: a resolved location in the state store. -/
abbrev HookRef := HookKey × Idx

/-! ### Association lists (model of `HashMap` / `DashMap`) -/

/-- Lookup in an association list keyed by `Nat` (first match). -/
def lookupA {β : Type} : List (Nat × β) → Nat → Option β
  | [], _ => none
  | p :: rest, key => if p.1 = key then some p.2 else lookupA rest key

/-- Remove every binding of `key` (model of `HashMap::remove`). -/
def eraseA {β : Type} (l : List (Nat × β)) (key : Nat) : List (Nat × β) :=
  l.filter (fun p => p.1 != key)

/-- Insert-or-replace a binding (model of `HashMap::insert`). -/
def insertA {β : Type} (l : List (Nat × β)) (key : Nat) (v : β) : List (Nat × β) :=
  (key, v) :: eraseA l key

/-- Lookup in a nested map `Key -> slot -> Idx` (model of `key_to_idx`). -/
def lookup2 (l : List (Nat × List (Nat × Nat))) (k slot : Nat) : Option Nat :=
  match lookupA l k with
  | some inner => lookupA inner slot
  | none => none

/-- `entry(k).or_default().entry(slot).or_insert(idx)` on the nested map. -/
def insert2 (l : List (Nat × List (Nat × Nat))) (k slot idx : Nat) :
    List (Nat × List (Nat × Nat)) :=
  match lookupA l k with
  | some inner => insertA l k (insertA inner slot idx)
  | none => insertA l k [(slot, idx)]

theorem eraseA_cons {β : Type} (p : Nat × β) (l : List (Nat × β)) (k : Nat) :
    eraseA (p :: l) k = if p.1 = k then eraseA l k else p :: eraseA l k := by
  by_cases h : p.1 = k <;> simp [eraseA, List.filter_cons, h]

theorem lookupA_eraseA_self {β : Type} (l : List (Nat × β)) (k : Nat) :
    lookupA (eraseA l k) k = none := by
  induction l with
  | nil => rfl
  | cons p rest ih =>
    rw [eraseA_cons]
    by_cases h : p.1 = k
    · simpa [h] using ih
    · simpa [lookupA, h] using ih

theorem lookupA_eraseA_ne {β : Type} (l : List (Nat × β)) (k k' : Nat) (h : k' ≠ k) :
    lookupA (eraseA l k) k' = lookupA l k' := by
  induction l with
  | nil => rfl
  | cons p rest ih =>
    rw [eraseA_cons]
    by_cases hp : p.1 = k
    · have hk : ¬ k = k' := Ne.symm h
      simpa [hp, lookupA, hk] using ih
    · by_cases hp' : p.1 = k'
      · simp [lookupA, hp', hp, h]
      · simpa [lookupA, hp', hp] using ih

theorem lookupA_insertA_self {β : Type} (l : List (Nat × β)) (k : Nat) (v : β) :
    lookupA (insertA l k v) k = some v := by
  simp [insertA, lookupA]

theorem lookupA_insertA_ne {β : Type} (l : List (Nat × β)) (k k' : Nat) (v : β)
    (h : k' ≠ k) : lookupA (insertA l k v) k' = lookupA l k' := by
  simp [insertA, lookupA, Ne.symm h]
  exact lookupA_eraseA_ne l k k' h

theorem lookup2_insert2_self (l : List (Nat × List (Nat × Nat))) (k slot idx : Nat) :
    lookup2 (insert2 l k slot idx) k slot = some idx := by
  unfold insert2 lookup2
  cases h : lookupA l k with
  | some inner => simp [lookupA_insertA_self]
  | none => simp [lookupA_insertA_self, lookupA]

/-! ### Free list arena (model of the `freelist` crate)

A slot is a `(occupied, payload)` pair: the payload cell survives `remove` (the
crate stores a union in place, and `PatchedTree::set_unconditional` writes the
value field of a slot without checking occupancy). -/

structure FreeList (α : Type) where
  slots : List (Bool × α)
  free : List Nat
deriving DecidableEq

namespace FreeList

/-- The empty arena. -/
def empty {α : Type} : FreeList α := ⟨[], []⟩

/-- Read an occupied slot (`Index`); `none` if freed or out of range. -/
def get {α : Type} (fl : FreeList α) (i : Nat) : Option α :=
  match fl.slots[i]? with
  | some (true, v) => some v
  | _ => none

/-- Raw payload of a slot, regardless of occupancy (the union's memory). -/
def payloadAt {α : Type} (fl : FreeList α) (i : Nat) : Option α :=
  (fl.slots[i]?).map (·.2)

/-- `FreeList::add`: reuse the head of the free list, else append. -/
def add {α : Type} (fl : FreeList α) (v : α) : FreeList α × Nat :=
  match fl.free with
  | f :: rest =>
    if f < fl.slots.length then ({ slots := fl.slots.set f (true, v), free := rest }, f)
    else ({ slots := fl.slots ++ [(true, v)], free := rest }, fl.slots.length)
  | [] => ({ slots := fl.slots ++ [(true, v)], free := [] }, fl.slots.length)

/-- `FreeList::remove`: mark the slot free and push it on the free list. -/
def remove {α : Type} (fl : FreeList α) (i : Nat) : FreeList α :=
  match fl.slots[i]? with
  | some (_, v) => { slots := fl.slots.set i (false, v), free := i :: fl.free }
  | none => { fl with free := i :: fl.free }

/-- `FreeList::removed`: true if the slot is freed (or out of range). -/
def removedB {α : Type} (fl : FreeList α) (i : Nat) : Bool :=
  match fl.slots[i]? with
  | some (b, _) => !b
  | none => true

/-- Update the payload of a slot in place (no-op out of range). -/
def setP {α : Type} (fl : FreeList α) (i : Nat) (f : α → α) : FreeList α :=
  match fl.slots[i]? with
  | some (b, v) => { fl with slots := fl.slots.set i (b, f v) }
  | none => fl

theorem get_add_self {α : Type} (fl : FreeList α) (v : α) :
    (fl.add v).1.get (fl.add v).2 = some v := by
  unfold add get
  cases hf : fl.free with
  | nil => simp
  | cons f rest =>
    by_cases h : f < fl.slots.length
    · simp [h, List.getElem?_set_self, h]
    · simp [h]

theorem get_setP_ne {α : Type} (fl : FreeList α) (i j : Nat) (f : α → α) (h : j ≠ i) :
    (fl.setP i f).get j = fl.get j := by
  unfold setP get
  cases hi : fl.slots[i]? with
  | none => rfl
  | some p => simp [List.getElem?_set_ne (Ne.symm h)]

theorem payloadAt_setP_ne {α : Type} (fl : FreeList α) (i j : Nat) (f : α → α) (h : j ≠ i) :
    (fl.setP i f).payloadAt j = fl.payloadAt j := by
  unfold setP payloadAt
  cases hi : fl.slots[i]? with
  | none => rfl
  | some p => simp [List.getElem?_set_ne (Ne.symm h)]

theorem get_remove_self {α : Type} (fl : FreeList α) (i : Nat) :
    (fl.remove i).get i = none := by
  unfold remove get
  cases hi : fl.slots[i]? with
  | none => simp [hi]
  | some p =>
    have hlt : i < fl.slots.length := by
      by_contra hge
      simp [List.getElem?_eq_none (Nat.le_of_not_lt hge)] at hi
    simp [List.getElem?_set_self hlt]

theorem get_remove_ne {α : Type} (fl : FreeList α) (i j : Nat) (h : j ≠ i) :
    (fl.remove i).get j = fl.get j := by
  unfold remove get
  cases hi : fl.slots[i]? with
  | none => rfl
  | some p => simp [List.getElem?_set_ne (Ne.symm h)]

theorem get_none_mono_remove {α : Type} (fl : FreeList α) (i j : Nat)
    (h : fl.get j = none) : (fl.remove i).get j = none := by
  by_cases hij : j = i
  · subst hij; exact get_remove_self fl j
  · rw [get_remove_ne fl i j hij]; exact h

end FreeList

/-! ### The versioned state store (`PatchedTree`) -/

/-- One buffered write: `Patch { key, value }`, keyed in the map by `Idx`. -/
structure Patch (V : Type) where
  key : HookKey
  value : V
deriving DecidableEq

/-- `PatchedTree`: committed arena of `(dependents, value)` cells, the nested
`key_to_idx` resolution map, and the concurrent patch (buffered write) map. -/
structure PatchedTree (V : Type) where
  data : FreeList (List Nat × V)
  keyToIdx : List (Nat × List (Nat × Nat))
  patch : List (Idx × Patch V)
deriving DecidableEq

namespace PatchedTree

/-- The empty store. -/
def empty {V : Type} : PatchedTree V := ⟨FreeList.empty, [], []⟩

/-- `get_unpatched`: read the committed value of a slot. -/
def get_unpatched {V : Type} (t : PatchedTree V) (r : HookRef) : Option V :=
  (t.data.get r.2).map (·.2)

/-- `get_patched`: the pending value if a patch exists, else the committed one. -/
def get_patched {V : Type} (t : PatchedTree V) (r : HookRef) : Option V :=
  match lookupA t.patch r.2 with
  | some p => some p.value
  | none => t.get_unpatched r

/-- `initialize`: resolve `(key, slot)`; on first use allocate a fresh cell with
an empty dependent set and the given value (`or_insert_with`). Named `initHook`
because `initialize` is a reserved keyword in Lean. -/
def initHook {V : Type} (t : PatchedTree V) (k : HookKey) (v : V) :
    PatchedTree V × HookRef :=
  match lookup2 t.keyToIdx k.1 k.2 with
  | some idx => (t, (k, idx))
  | none =>
    let (data', idx) := t.data.add ([], v)
    ({ t with data := data', keyToIdx := insert2 t.keyToIdx k.1 k.2 idx }, (k, idx))

/-- `set`: insert/overwrite a buffered patch; committed state untouched. -/
def set {V : Type} (t : PatchedTree V) (r : HookRef) (v : V) : PatchedTree V :=
  { t with patch := insertA t.patch r.2 ⟨r.1, v⟩ }

/-- `set_unconditional`: write the committed value field of a slot in place
(no occupancy check, mirroring `self.data.write()[idx].1 = value`). -/
def set_unconditional {V : Type} (t : PatchedTree V) (idx : Idx) (v : V) :
    PatchedTree V :=
  { t with data := t.data.setP idx (fun p => (p.1, v)) }

/-- `remove_widget`: drop the key's resolution map and free all of its cells. -/
def remove_widget {V : Type} (t : PatchedTree V) (k : Key) : PatchedTree V :=
  match lookupA t.keyToIdx k with
  | some inner =>
    { t with keyToIdx := eraseA t.keyToIdx k,
             data := inner.foldl (fun d p => d.remove p.2) t.data }
  | none => t

/-- `set_dependent`: record a reading fragment in the cell's dependent set. -/
def set_dependent {V : Type} (t : PatchedTree V) (r : HookRef) (frag : Nat) :
    PatchedTree V :=
  { t with data := t.data.setP r.2 (fun p => (if frag ∈ p.1 then p.1 else frag :: p.1, p.2)) }

/-- `dependents`: take (return and clear) the dependent set of a cell. -/
def dependents_take {V : Type} (t : PatchedTree V) (idx : Idx) :
    List Nat × PatchedTree V :=
  match t.data.get idx with
  | some p => (p.1, { t with data := t.data.setP idx (fun q => ([], q.2)) })
  | none => ([], t)

/-- The per-element body of the `update_tree` iterator: remove the patch for
`idx` (`unwrap` panics as `none`), apply it unconditionally, yield `(key, idx)`. -/
def updateGo {V : Type} : List Idx → PatchedTree V → Option (PatchedTree V × List HookRef)
  | [], t => some (t, [])
  | idx :: rest, t =>
    match lookupA t.patch idx with
    | none => none
    | some p =>
      let t1 := { t with patch := eraseA t.patch idx }
      let t2 := t1.set_unconditional idx p.value
      (updateGo rest t2).map (fun q => (q.1, (p.key, idx) :: q.2))

/-- `update_tree` (commit), with its returned iterator fully consumed: snapshot
the patched indices, then drain and apply each. -/
def update_tree {V : Type} (t : PatchedTree V) :
    Option (PatchedTree V × List HookRef) :=
  updateGo (t.patch.map Prod.fst) t

end PatchedTree

/-! ### Claim C3: buffered writes, last write wins, committed state untouched -/

/-- C3: after `write(r, v1)` then `write(r, v2)` with no intervening commit,
`get_patched` on `r` returns `v2` (pending preferred, last write wins) and the
committed arena is unchanged. -/
theorem write_write_read {V : Type} (t : PatchedTree V) (r : HookRef) (v1 v2 : V) :
    ((t.set r v1).set r v2).get_patched r = some v2 ∧
    ((t.set r v1).set r v2).data = t.data ∧
    ((t.set r v1).set r v2).get_unpatched r = t.get_unpatched r := by
  refine ⟨?_, rfl, rfl⟩
  simp [PatchedTree.set, PatchedTree.get_patched, lookupA_insertA_self]

/-! ### Claim C5: `initialize` is idempotent and does not overwrite -/

/-- C5: with `k` not yet resolved, `initialize(k, v1)` then `initialize(k, v2)`
returns the same `HookRef` both times, the second call changes nothing (so the
stored value is still `v1`), and the first call creates the cell with an empty
dependent set. -/
theorem initHook_idempotent {V : Type} (t : PatchedTree V) (k : HookKey) (v1 v2 : V)
    (h : lookup2 t.keyToIdx k.1 k.2 = none) :
    ((t.initHook k v1).1.initHook k v2).2 = (t.initHook k v1).2 ∧
    ((t.initHook k v1).1.initHook k v2).1 = (t.initHook k v1).1 ∧
    (t.initHook k v1).1.data.get (t.initHook k v1).2.2 = some ([], v1) := by
  unfold PatchedTree.initHook
  simp only [h]
  have hl : lookup2 (insert2 t.keyToIdx k.1 k.2 (t.data.add ([], v1)).2) k.1 k.2 =
      some (t.data.add ([], v1)).2 := lookup2_insert2_self _ _ _ _
  refine ⟨?_, ?_, ?_⟩
  · simp [hl]
  · simp [hl]
  · simpa using FreeList.get_add_self t.data ([], v1)

/-- Witness for C5 at a concrete store. -/
theorem initHook_idempotent_witness :
    lookup2 (PatchedTree.empty (V := Nat)).keyToIdx 4 0 = none ∧
    (((PatchedTree.empty (V := Nat)).initHook (4, 0) 11).1.initHook (4, 0) 22).2 =
      ((PatchedTree.empty (V := Nat)).initHook (4, 0) 11).2 :=
  ⟨by decide, (initHook_idempotent (PatchedTree.empty (V := Nat)) (4, 0) 11 22 (by decide)).1⟩

/-! ### Further `FreeList` lemmas for the commit machinery -/

namespace FreeList

theorem get_setP_self {α : Type} (fl : FreeList α) (i : Nat) (f : α → α) (v : α)
    (h : fl.get i = some v) : (fl.setP i f).get i = some (f v) := by
  unfold get at h
  unfold setP get
  cases hi : fl.slots[i]? with
  | none => simp [hi] at h
  | some p =>
    obtain ⟨b, w⟩ := p
    cases b with
    | false => simp [hi] at h
    | true =>
      simp [hi] at h
      have hlt : i < fl.slots.length := by
        by_contra hge
        simp [List.getElem?_eq_none (Nat.le_of_not_lt hge)] at hi
      simp [hi, List.getElem?_set_self hlt, h]

theorem get_setP_none {α : Type} (fl : FreeList α) (i : Nat) (f : α → α)
    (h : fl.get i = none) : (fl.setP i f).get i = none := by
  unfold get at h
  unfold setP get
  cases hi : fl.slots[i]? with
  | none => simp [hi]
  | some p =>
    obtain ⟨b, w⟩ := p
    cases b with
    | true => simp [hi] at h
    | false =>
      have hlt : i < fl.slots.length := by
        by_contra hge
        simp [List.getElem?_eq_none (Nat.le_of_not_lt hge)] at hi
      simp [hi, List.getElem?_set_self hlt]

theorem payloadAt_setP_self {α : Type} (fl : FreeList α) (i : Nat) (f : α → α) (v : α)
    (h : fl.payloadAt i = some v) : (fl.setP i f).payloadAt i = some (f v) := by
  unfold payloadAt at h
  unfold setP payloadAt
  cases hi : fl.slots[i]? with
  | none => simp [hi] at h
  | some p =>
    have hlt : i < fl.slots.length := by
      by_contra hge
      simp [List.getElem?_eq_none (Nat.le_of_not_lt hge)] at hi
    simp [hi] at h
    simp [hi, List.getElem?_set_self hlt, h]

theorem payloadAt_remove {α : Type} (fl : FreeList α) (i j : Nat) :
    (fl.remove i).payloadAt j = fl.payloadAt j := by
  unfold remove payloadAt
  cases hi : fl.slots[i]? with
  | none => rfl
  | some p =>
    by_cases hij : j = i
    · subst hij
      have hlt : j < fl.slots.length := by
        by_contra hge
        simp [List.getElem?_eq_none (Nat.le_of_not_lt hge)] at hi
      simp [List.getElem?_set_self hlt, hi]
    · simp [List.getElem?_set_ne (Ne.symm hij)]

end FreeList

/-- Removal folded over a key's resolved indices makes each of them unreadable. -/
theorem foldRemove_get_none_mono {V : Type} (inner : List (Nat × Nat)) :
    ∀ (dat : FreeList (List Nat × V)) (j : Nat), dat.get j = none →
    (inner.foldl (fun d p => d.remove p.2) dat).get j = none := by
  induction inner with
  | nil => intro dat j h; exact h
  | cons q rest ih =>
    intro dat j h
    rw [List.foldl_cons]
    exact ih _ _ (FreeList.get_none_mono_remove _ _ _ h)

theorem foldRemove_get_none_of_mem {V : Type} (inner : List (Nat × Nat)) :
    ∀ (dat : FreeList (List Nat × V)) (idx : Nat), idx ∈ inner.map (·.2) →
    (inner.foldl (fun d p => d.remove p.2) dat).get idx = none := by
  induction inner with
  | nil => intro dat idx h; simp at h
  | cons q rest ih =>
    intro dat idx h
    rw [List.foldl_cons]
    simp only [List.map_cons, List.mem_cons] at h
    cases h with
    | inl h =>
      subst h
      exact foldRemove_get_none_mono rest _ _ (FreeList.get_remove_self dat q.2)
    | inr h => exact ih _ _ h

theorem foldRemove_get_ne {V : Type} (inner : List (Nat × Nat)) :
    ∀ (dat : FreeList (List Nat × V)) (j : Nat), j ∉ inner.map (·.2) →
    (inner.foldl (fun d p => d.remove p.2) dat).get j = dat.get j := by
  induction inner with
  | nil => intro dat j _; rfl
  | cons q rest ih =>
    intro dat j h
    rw [List.foldl_cons]
    simp only [List.map_cons, List.mem_cons, not_or] at h
    rw [ih _ _ h.2, FreeList.get_remove_ne _ _ _ h.1]

theorem foldRemove_payloadAt {V : Type} (inner : List (Nat × Nat)) :
    ∀ (dat : FreeList (List Nat × V)) (j : Nat),
    (inner.foldl (fun d p => d.remove p.2) dat).payloadAt j = dat.payloadAt j := by
  induction inner with
  | nil => intro dat j; rfl
  | cons q rest ih =>
    intro dat j
    rw [List.foldl_cons, ih, FreeList.payloadAt_remove]

theorem lookupA_mem_values {β : Type} (l : List (Nat × β)) (k : Nat) (v : β)
    (h : lookupA l k = some v) : v ∈ l.map (·.2) := by
  induction l with
  | nil => simp [lookupA] at h
  | cons p rest ih =>
    rw [lookupA] at h
    by_cases hp : p.1 = k
    · simp [hp] at h
      simp [← h]
    · simp [hp] at h
      simp [ih h]

theorem keys_nodup_eraseA {β : Type} (l : List (Nat × β)) (k : Nat)
    (h : (l.map Prod.fst).Nodup) : ((eraseA l k).map Prod.fst).Nodup := by
  induction l with
  | nil => simp [eraseA]
  | cons p rest ih =>
    simp only [List.map_cons, List.nodup_cons] at h
    rw [eraseA_cons]
    by_cases hp : p.1 = k
    · simpa [hp] using ih h.2
    · simp only [hp, if_false, List.map_cons, List.nodup_cons]
      refine ⟨fun hm => h.1 ?_, ih h.2⟩
      have : (eraseA rest k).map Prod.fst ⊆ rest.map Prod.fst := by
        intro x hx
        simp only [List.mem_map] at hx ⊢
        obtain ⟨q, hq, hqx⟩ := hx
        exact ⟨q, List.mem_of_mem_filter hq, hqx⟩
      exact this hm

theorem not_mem_keys_eraseA {β : Type} (l : List (Nat × β)) (k : Nat) :
    k ∉ (eraseA l k).map Prod.fst := by
  intro hm
  simp only [List.mem_map] at hm
  obtain ⟨q, hq, hqk⟩ := hm
  have := List.of_mem_filter hq
  simp [hqk] at this

theorem keys_nodup_insertA {β : Type} (l : List (Nat × β)) (k : Nat) (v : β)
    (h : (l.map Prod.fst).Nodup) : ((insertA l k v).map Prod.fst).Nodup := by
  simp only [insertA, List.map_cons, List.nodup_cons]
  exact ⟨not_mem_keys_eraseA l k, keys_nodup_eraseA l k h⟩

theorem eraseA_of_not_mem_keys {β : Type} (l : List (Nat × β)) (k : Nat)
    (h : k ∉ l.map Prod.fst) : eraseA l k = l := by
  induction l with
  | nil => rfl
  | cons p rest ih =>
    simp only [List.map_cons, List.mem_cons, not_or] at h
    rw [eraseA_cons, if_neg (fun hc => h.1 hc.symm), ih h.2]

/-! ### Full specification of `update_tree` (commit) -/

/-- What one full consumption of the `update_tree` iterator does, provided the
patch map's indices are distinct (which the concurrent map guarantees):
the yielded refs are exactly the buffered patches' `(key, idx)` pairs, the
patch map is drained, the resolution map is untouched, unpatched slots keep
their committed cell, each patched slot has exactly its patch value applied
(once), and freed slots stay freed while still receiving the raw value write. -/
theorem updateGo_spec {V : Type} :
    ∀ (t : PatchedTree V), ((t.patch.map Prod.fst).Nodup) →
    ∃ t', PatchedTree.updateGo (t.patch.map Prod.fst) t =
        some (t', t.patch.map (fun p => (p.2.key, p.1))) ∧
      t'.patch = [] ∧
      t'.keyToIdx = t.keyToIdx ∧
      (∀ idx, idx ∉ t.patch.map Prod.fst →
        t'.data.get idx = t.data.get idx ∧ t'.data.payloadAt idx = t.data.payloadAt idx) ∧
      (∀ idx p, (idx, p) ∈ t.patch →
        (∀ ds w, t.data.get idx = some (ds, w) → t'.data.get idx = some (ds, p.value)) ∧
        (∀ ds w, t.data.payloadAt idx = some (ds, w) →
          t'.data.payloadAt idx = some (ds, p.value))) ∧
      (∀ idx, t.data.get idx = none → t'.data.get idx = none) := by
  intro t
  generalize hps : t.patch = ps
  induction ps generalizing t with
  | nil =>
    intro _
    refine ⟨t, ?_⟩
    simp [hps, PatchedTree.updateGo]
  | cons hd rest ih =>
    intro hnd
    obtain ⟨idx, p⟩ := hd
    simp only [List.map_cons, List.nodup_cons] at hnd
    have hlk : lookupA t.patch idx = some p := by
      rw [hps, lookupA]; simp
    have herase : eraseA t.patch idx = rest := by
      rw [hps, eraseA_cons, if_pos rfl]
      exact eraseA_of_not_mem_keys rest idx hnd.1
    set t2 : PatchedTree V :=
      ({ t with patch := eraseA t.patch idx } : PatchedTree V).set_unconditional idx p.value
      with ht2
    have ht2patch : t2.patch = rest := by
      simp [ht2, PatchedTree.set_unconditional, herase]
    have ht2key : t2.keyToIdx = t.keyToIdx := by
      simp [ht2, PatchedTree.set_unconditional]
    have ht2data : t2.data = t.data.setP idx (fun q => (q.1, p.value)) := by
      simp [ht2, PatchedTree.set_unconditional]
    obtain ⟨t', hgo, hpatch, hkey, hnp, hap, hnone⟩ := ih t2 ht2patch hnd.2
    have hstep : PatchedTree.updateGo (idx :: List.map Prod.fst rest) t =
        (PatchedTree.updateGo (List.map Prod.fst rest) t2).map
          (fun q => (q.1, (p.key, idx) :: q.2)) := by
      show (match lookupA t.patch idx with
        | none => none
        | some pp =>
          (PatchedTree.updateGo (List.map Prod.fst rest)
            (({ t with patch := eraseA t.patch idx } : PatchedTree V).set_unconditional
              idx pp.value)).map
            (fun (q : PatchedTree V × List HookRef) => (q.1, (pp.key, idx) :: q.2))) = _
      rw [hlk]
    refine ⟨t', ?_, hpatch, by rw [hkey, ht2key], ?_, ?_, ?_⟩
    · simp only [List.map_cons]
      rw [hstep, hgo]
      rfl
    · intro j hj
      simp only [List.map_cons, List.mem_cons, not_or] at hj
      have h1 := hnp j hj.2
      rw [ht2data] at h1
      rw [h1.1, h1.2, FreeList.get_setP_ne _ _ _ _ hj.1, FreeList.payloadAt_setP_ne _ _ _ _ hj.1]
      exact ⟨rfl, rfl⟩
    · intro j q hq
      rw [List.mem_cons] at hq
      cases hq with
      | inl hq =>
        have hji : j = idx := by cases hq; rfl
        have hqp : q = p := by cases hq; rfl
        subst hji; subst hqp
        have h3 := hnp j hnd.1
        constructor
        · intro ds w hget
          have h2 : t2.data.get j = some (ds, q.value) := by
            rw [ht2data]
            exact FreeList.get_setP_self _ _ _ _ hget
          exact h3.1.trans h2
        · intro ds w hget
          have h2 : t2.data.payloadAt j = some (ds, q.value) := by
            rw [ht2data]
            exact FreeList.payloadAt_setP_self _ _ _ _ hget
          exact h3.2.trans h2
      | inr hq =>
        have hji : j ≠ idx := by
          intro hc
          exact hnd.1 (by subst hc; exact List.mem_map_of_mem Prod.fst hq)
        have h2 := hap j q hq
        constructor
        · intro ds w hget
          refine h2.1 ds w ?_
          rw [ht2data, FreeList.get_setP_ne _ _ _ _ hji]
          exact hget
        · intro ds w hget
          refine h2.2 ds w ?_
          rw [ht2data, FreeList.payloadAt_setP_ne _ _ _ _ hji]
          exact hget
    · intro j hget
      refine hnone j ?_
      rw [ht2data]
      by_cases hji : j = idx
      · subst hji
        exact FreeList.get_setP_none _ _ _ hget
      · rw [FreeList.get_setP_ne _ _ _ _ hji]
        exact hget

/-! ### Claim C2: what commit yields -/

/-- The claim's reading, as stated: every hook key yielded by a fully consumed
commit had its committed value changed by the commit. -/
def commitYieldsOnlyChanged : Prop :=
  ∀ (t t' : PatchedTree Nat) (ys : List HookRef),
    t.update_tree = some (t', ys) → ∀ r, r ∈ ys → t'.data.get r.2 ≠ t.data.get r.2

/-- A store with one cell committed at value `9` and a buffered patch writing
the same `9` back to it. -/
def c2Tree : PatchedTree Nat :=
  { data := ⟨[(true, ([], 9))], []⟩,
    keyToIdx := [(5, [(0, 0)])],
    patch := [(0, ⟨(5, 0), 9⟩)] }

/-- C2, counterexample: commit on `c2Tree` yields the hook key `(5, 0)` even
though its committed value is `9` before and after — the code yields every
patched key and never compares values, so the claim as stated is false. -/
theorem commit_yields_only_changed_false : ¬ commitYieldsOnlyChanged := by
  intro h
  have h2 := h c2Tree
    { data := ⟨[(true, ([], 9))], []⟩, keyToIdx := [(5, [(0, 0)])], patch := [] }
    [((5, 0), 0)] (by decide) ((5, 0), 0) (by decide)
  exact h2 (by decide)

/-- C2, amended: a fully consumed commit applies every buffered patch to its
committed slot exactly once, leaves the patch map empty, and yields exactly the
buffered patches' hook keys (the touched keys) — whether or not the applied
value differs from the committed one; other slots are untouched. -/
theorem update_tree_commit_spec {V : Type} (t : PatchedTree V)
    (hnd : (t.patch.map Prod.fst).Nodup) :
    ∃ t', t.update_tree = some (t', t.patch.map (fun p => (p.2.key, p.1))) ∧
      t'.patch = [] ∧
      t'.keyToIdx = t.keyToIdx ∧
      (∀ idx, idx ∉ t.patch.map Prod.fst → t'.data.get idx = t.data.get idx) ∧
      (∀ idx p, (idx, p) ∈ t.patch →
        ∀ ds w, t.data.get idx = some (ds, w) → t'.data.get idx = some (ds, p.value)) := by
  obtain ⟨t', hgo, hpatch, hkey, hnp, hap, _⟩ := updateGo_spec t hnd
  exact ⟨t', hgo, hpatch, hkey, fun idx h => (hnp idx h).1, fun idx p h => (hap idx p h).1⟩

/-- Witness for C2 (amended) at a concrete store: one patch, applied once. -/
theorem update_tree_commit_spec_witness :
    ((c2Tree.patch.map Prod.fst).Nodup) ∧
    ∃ t', c2Tree.update_tree = some (t', c2Tree.patch.map (fun p => (p.2.key, p.1))) ∧
      t'.patch = [] ∧
      t'.keyToIdx = c2Tree.keyToIdx ∧
      (∀ idx, idx ∉ c2Tree.patch.map Prod.fst → t'.data.get idx = c2Tree.data.get idx) ∧
      (∀ idx p, (idx, p) ∈ c2Tree.patch →
        ∀ ds w, c2Tree.data.get idx = some (ds, w) → t'.data.get idx = some (ds, p.value)) :=
  ⟨by decide, update_tree_commit_spec c2Tree (by decide)⟩

/-! ### Claim C10: `remove_widget` does not clear buffered patches -/

theorem payloadAt_of_get {α : Type} (fl : FreeList α) (i : Nat) (v : α)
    (h : fl.get i = some v) : fl.payloadAt i = some v := by
  unfold FreeList.get at h
  unfold FreeList.payloadAt
  cases hi : fl.slots[i]? with
  | none => simp [hi] at h
  | some p =>
    obtain ⟨b, w⟩ := p
    cases b with
    | false => simp [hi] at h
    | true => simp [hi] at h; simp [hi, h]

/-- C10: a buffered patch for a cell of `key` survives `remove_widget(key)`:
it is still in the patch map, the next commit still yields its hook key, and
the value is written unconditionally into the freed arena slot's payload (the
slot stays freed) — the write is not dropped atomically with the cell. -/
theorem remove_widget_keeps_patch {V : Type} (t : PatchedTree V) (k slot idx : Nat) (v : V)
    (h1 : lookup2 t.keyToIdx k slot = some idx)
    (h2 : (t.data.get idx).isSome = true)
    (h3 : (t.patch.map Prod.fst).Nodup) :
    lookupA ((t.set ((k, slot), idx) v).remove_widget k).patch idx = some ⟨(k, slot), v⟩ ∧
    ((t.set ((k, slot), idx) v).remove_widget k).data.get idx = none ∧
    (∃ t3 ys, ((t.set ((k, slot), idx) v).remove_widget k).update_tree = some (t3, ys) ∧
      ((k, slot), idx) ∈ ys ∧
      (∃ ds, t3.data.payloadAt idx = some (ds, v)) ∧
      t3.data.get idx = none) := by
  obtain ⟨inner, hin⟩ : ∃ inner, lookupA t.keyToIdx k = some inner := by
    unfold lookup2 at h1
    cases hl : lookupA t.keyToIdx k with
    | none => rw [hl] at h1; exact absurd h1 (by simp)
    | some inner => exact ⟨inner, rfl⟩
  have hmem : idx ∈ inner.map (·.2) := by
    unfold lookup2 at h1
    rw [hin] at h1
    exact lookupA_mem_values inner slot idx h1
  set t1 : PatchedTree V := t.set ((k, slot), idx) v with ht1
  have ht1patch : t1.patch = insertA t.patch idx ⟨(k, slot), v⟩ := rfl
  set t2 : PatchedTree V := t1.remove_widget k with ht2
  have ht2eq : t2 =
      { t1 with
          keyToIdx := eraseA t1.keyToIdx k,
          data := inner.foldl (fun d p => d.remove p.2) t1.data } := by
    rw [ht2, PatchedTree.remove_widget]
    have hin1 : lookupA t1.keyToIdx k = some inner := hin
    rw [hin1]
  have ht2patch : t2.patch = insertA t.patch idx ⟨(k, slot), v⟩ := by
    rw [ht2eq]; rfl
  have ht2data : t2.data = inner.foldl (fun d p => d.remove p.2) t.data := by
    rw [ht2eq]; rfl
  have hgone : t2.data.get idx = none := by
    rw [ht2data]; exact foldRemove_get_none_of_mem inner t.data idx hmem
  refine ⟨by rw [ht2patch]; exact lookupA_insertA_self _ _ _, hgone, ?_⟩
  have hnd2 : (t2.patch.map Prod.fst).Nodup := by
    rw [ht2patch]; exact keys_nodup_insertA t.patch idx _ h3
  obtain ⟨t3, hgo, _, _, _, hap, hnone⟩ := updateGo_spec t2 hnd2
  refine ⟨t3, t2.patch.map (fun p => (p.2.key, p.1)), ?_, ?_, ?_, hnone idx hgone⟩
  · show PatchedTree.updateGo (t2.patch.map Prod.fst) t2 =
      some (t3, t2.patch.map (fun p => (p.2.key, p.1)))
    exact hgo
  · rw [ht2patch, insertA, List.map_cons]
    exact List.mem_cons_self _ _
  · have hhd : (idx, (⟨(k, slot), v⟩ : Patch V)) ∈ t2.patch := by
      rw [ht2patch, insertA]; exact List.mem_cons_self _ _
    obtain ⟨w, hw⟩ := Option.isSome_iff_exists.mp h2
    obtain ⟨ds, wv⟩ := w
    have hpay : t2.data.payloadAt idx = some (ds, wv) := by
      rw [ht2data, foldRemove_payloadAt]
      exact payloadAt_of_get t.data idx _ hw
    exact ⟨ds, (hap idx _ hhd).2 ds wv hpay⟩

/-- Concrete store for the C10 witness. -/
def c10Tree : PatchedTree Nat :=
  { data := ⟨[(true, ([], 7))], []⟩, keyToIdx := [(3, [(0, 0)])], patch := [] }

/-- Witness for C10 at a concrete store. -/
theorem remove_widget_keeps_patch_witness :
    (lookup2 c10Tree.keyToIdx 3 0 = some 0 ∧ (c10Tree.data.get 0).isSome = true ∧
      (c10Tree.patch.map Prod.fst).Nodup) ∧
    lookupA ((c10Tree.set ((3, 0), 0) 42).remove_widget 3).patch 0 = some ⟨(3, 0), 42⟩ ∧
    ((c10Tree.set ((3, 0), 0) 42).remove_widget 3).data.get 0 = none ∧
    (∃ t3 ys, ((c10Tree.set ((3, 0), 0) 42).remove_widget 3).update_tree = some (t3, ys) ∧
      ((3, 0), 0) ∈ ys ∧
      (∃ ds, t3.data.payloadAt 0 = some (ds, 42)) ∧
      t3.data.get 0 = none) :=
  ⟨⟨by decide, by decide, by decide⟩,
    remove_widget_keeps_patch c10Tree 3 0 0 42 (by decide) (by decide) (by decide)⟩

/-! ### Hook-key derivation (`WidgetContext::key_for_hook`, claim C8) -/

/-- `WidgetLocalContext`: per-call-frame key, fragment index and local hook
counter (a `u16`). -/
structure WidgetLocalContext where
  key : Key
  idx : Nat
  hook_counter : Nat
deriving DecidableEq

/-- `WidgetLocalContext::for_key`: a fresh context resets the counter to 0. -/
def WidgetLocalContext.for_key (k : Key) (idx : Nat) : WidgetLocalContext :=
  ⟨k, idx, 0⟩

/-- `ExternalHookCount`: per-key persistent `u16` counters. -/
structure ExternalHookCount where
  counts : List (Key × Nat)
deriving DecidableEq

/-- `ExternalHookCount::next`: return the key's count, then increment it
(`u16` arithmetic, hence mod `2 ^ 16`). -/
def ExternalHookCount.next (e : ExternalHookCount) (k : Key) : Nat × ExternalHookCount :=
  let c := (lookupA e.counts k).getD 0
  (c, ⟨insertA e.counts k ((c + 1) % 65536)⟩)

/-- `WidgetContext::key_for_hook`: local hooks take the per-pass sequential
counter; external hooks take the persistent per-key counter with the top bit
of the 16-bit slot space set (`| 0b1000_0000_0000_0000`). -/
def key_for_hook (localHook : Bool) (wl : WidgetLocalContext) (ext : ExternalHookCount) :
    HookKey × WidgetLocalContext × ExternalHookCount :=
  if localHook then
    ((wl.key, wl.hook_counter), { wl with hook_counter := (wl.hook_counter + 1) % 65536 }, ext)
  else
    let (c, ext') := ext.next wl.key
    ((wl.key, Nat.lor c 32768), wl, ext')

/-- The widget-local context after `n` local hook allocations in one pass. -/
def localCtxAfter (k idx : Nat) : Nat → WidgetLocalContext
  | 0 => WidgetLocalContext.for_key k idx
  | n + 1 => (key_for_hook true (localCtxAfter k idx n) ⟨[]⟩).2.1

/-- Slot handed to the `n`-th local hook of a pass (counting from 0). -/
def nthLocalSlot (k idx n : Nat) : Nat :=
  ((key_for_hook true (localCtxAfter k idx n) ⟨[]⟩).1).2

/-- The external counter state after `m` external allocations for key `k`. -/
def extAfter (k : Key) : Nat → ExternalHookCount
  | 0 => ⟨[]⟩
  | m + 1 => ((extAfter k m).next k).2

/-- Slot handed to the `m`-th external hook for key `k` (counting from 0),
the counter persisting across passes. -/
def nthExtSlot (k m : Nat) : Nat :=
  ((key_for_hook false (WidgetLocalContext.for_key k 0) (extAfter k m)).1).2

theorem localCtxAfter_counter (k idx : Nat) :
    ∀ n, (localCtxAfter k idx n).hook_counter = n % 65536 := by
  intro n
  induction n with
  | zero => rfl
  | succ n ih =>
    show ((key_for_hook true (localCtxAfter k idx n) ⟨[]⟩).2.1).hook_counter = (n + 1) % 65536
    rw [key_for_hook]
    simp only [if_pos]
    show ((localCtxAfter k idx n).hook_counter + 1) % 65536 = (n + 1) % 65536
    rw [ih]
    omega

theorem extAfter_count (k : Key) :
    ∀ m, (lookupA (extAfter k m).counts k).getD 0 = m % 65536 := by
  intro m
  induction m with
  | zero => rfl
  | succ m ih =>
    show (lookupA ((extAfter k m).next k).2.counts k).getD 0 = (m + 1) % 65536
    rw [ExternalHookCount.next]
    simp only [lookupA_insertA_self, Option.getD_some]
    rw [ih]
    omega

theorem nthLocalSlot_eq (k idx n : Nat) (hn : n < 65536) : nthLocalSlot k idx n = n := by
  unfold nthLocalSlot key_for_hook
  simp only [if_pos]
  show (localCtxAfter k idx n).hook_counter = n
  rw [localCtxAfter_counter, Nat.mod_eq_of_lt hn]

theorem nthExtSlot_eq (k m : Nat) (hm : m < 65536) : nthExtSlot k m = Nat.lor m 32768 := by
  unfold nthExtSlot key_for_hook ExternalHookCount.next
  simp only [Bool.false_eq_true, if_neg]
  show Nat.lor ((lookupA (extAfter k m).counts k).getD 0) 32768 = Nat.lor m 32768
  rw [extAfter_count, Nat.mod_eq_of_lt hm]

theorem lor_top_testBit (m : Nat) : Nat.testBit (Nat.lor m 32768) 15 = true := by
  have h : (32768 : Nat) = 2 ^ 15 := by norm_num
  rw [show Nat.lor m 32768 = m ||| 32768 from rfl, Nat.testBit_lor, h,
    Nat.testBit_two_pow_self]
  simp

theorem lor_top_inj (i j : Nat) (hi : i < 32768) (hj : j < 32768)
    (h : Nat.lor i 32768 = Nat.lor j 32768) : i = j := by
  have h15 : (32768 : Nat) = 2 ^ 15 := by norm_num
  refine Nat.eq_of_testBit_eq fun b => ?_
  by_cases hb : b = 15
  · subst hb
    rw [Nat.testBit_eq_false_of_lt (by omega), Nat.testBit_eq_false_of_lt (by omega)]
  · have hbp : Nat.testBit 32768 b = false := by
      rw [h15]; exact Nat.testBit_two_pow_of_ne (fun hc => hb hc.symm)
    have e1 : Nat.testBit (Nat.lor i 32768) b = Nat.testBit i b := by
      rw [show Nat.lor i 32768 = i ||| 32768 from rfl, Nat.testBit_lor, hbp, Bool.or_false]
    have e2 : Nat.testBit (Nat.lor j 32768) b = Nat.testBit j b := by
      rw [show Nat.lor j 32768 = j ||| 32768 from rfl, Nat.testBit_lor, hbp, Bool.or_false]
    rw [← e1, ← e2, h]

/-- C8: for fewer than `32768` allocations of each kind per key, the `n`-th
local hook of a pass gets slot `n` (the counter resets to 0 when the context
is created), every external hook gets its persistent per-key counter value
with the top bit of the 16-bit slot set, external slots are never reused, and
no local slot ever equals an external slot. -/
theorem hook_slot_spaces (k idx n m : Nat) (hn : n < 32768) (hm : m < 32768) :
    nthLocalSlot k idx n = n ∧
    Nat.testBit (nthExtSlot k m) 15 = true ∧
    (∀ j, j < 32768 → j ≠ m → nthExtSlot k j ≠ nthExtSlot k m) ∧
    nthLocalSlot k idx n ≠ nthExtSlot k m := by
  have hln : nthLocalSlot k idx n = n := nthLocalSlot_eq k idx n (by omega)
  have hext : nthExtSlot k m = Nat.lor m 32768 := nthExtSlot_eq k m (by omega)
  refine ⟨hln, by rw [hext]; exact lor_top_testBit m, ?_, ?_⟩
  · intro j hj hne
    rw [hext, nthExtSlot_eq k j (by omega)]
    intro hc
    exact hne (lor_top_inj j m hj hm hc)
  · rw [hln, hext]
    intro hc
    have h1 : Nat.testBit n 15 = true := by rw [hc]; exact lor_top_testBit m
    rw [Nat.testBit_eq_false_of_lt (show n < 2 ^ 15 by omega)] at h1
    exact absurd h1 (by simp)

/-- Witness for C8 at concrete counter positions. -/
theorem hook_slot_spaces_witness :
    ((3 : Nat) < 32768 ∧ (5 : Nat) < 32768) ∧
    (nthLocalSlot 9 0 3 = 3 ∧
      Nat.testBit (nthExtSlot 9 5) 15 = true ∧
      (∀ j, j < 32768 → j ≠ 5 → nthExtSlot 9 j ≠ nthExtSlot 9 5) ∧
      nthLocalSlot 9 0 3 ≠ nthExtSlot 9 5) :=
  ⟨⟨by decide, by decide⟩, hook_slot_spaces 9 0 3 5 (by decide) (by decide)⟩

/-! ### Fragment arena (`FragmentStore`) and fragment states -/

/-- Generator id: generators are type-erased closures in the source
(`Rc<dyn Fn(&mut WidgetContext) -> FragmentInner>`); the model names each one
by an id resolved through a generator environment `GEnv`. -/
abbrev GenId := Nat

/-- `EvaluatedFragment`: key, generator, layout handle, own arena index, and
the ordered child list gathered by the delta evaluator. -/
structure EvaluatedFragment where
  key : Key
  gen : GenId
  layout_idx : Idx
  store_idx : Nat
  children : List Nat
deriving DecidableEq

/-- `MaybeEvaluatedFragment`. -/
inductive MaybeEvaluatedFragment where
  | Unevaluated (key : Key) (gen : GenId)
  | Evaluated (frag : EvaluatedFragment)
deriving DecidableEq

/-- `MaybeEvaluatedFragment::key`. -/
def MaybeEvaluatedFragment.keyOf : MaybeEvaluatedFragment → Key
  | .Unevaluated k _ => k
  | .Evaluated e => e.key

/-- `FragmentInfo`: optional fragment state plus optional type-erased args. -/
structure FragmentInfo where
  fragment : Option MaybeEvaluatedFragment
  args : Option Nat
deriving DecidableEq

/-- `FragmentStore`: reusable-slot arena plus the dirty-args queue. -/
structure FragmentStore where
  data : FreeList FragmentInfo
  dirty_args : List Nat
deriving DecidableEq

namespace FragmentStore

/-- `get`: the fragment state at a slot (`unwrap` modelled as `Option`). -/
def get (st : FragmentStore) (i : Nat) : Option MaybeEvaluatedFragment :=
  (st.data.get i).bind (·.fragment)

/-- `unsafe fn removed`: the slot was freed, or its fragment field is absent. -/
def removedCheck (st : FragmentStore) (i : Nat) : Bool :=
  st.data.removedB i ||
    (match st.data.get i with
     | some info => info.fragment.isNone
     | none => true)

/-- `add_empty_fragment`. -/
def add_empty_fragment (st : FragmentStore) : FragmentStore × Nat :=
  let (d, i) := st.data.add ⟨none, none⟩
  ({ st with data := d }, i)

/-- `add_fragment`: populate the slot only if still empty (idempotent). -/
def add_fragment (st : FragmentStore) (i : Nat) (k : Key) (g : GenId) : FragmentStore :=
  match st.data.get i with
  | some info =>
    if info.fragment.isNone then
      let d := st.data.setP i (fun inf => { inf with fragment := some (.Unevaluated k g) })
      { st with data := d }
    else st
  | none => st

/-- Overwrite a slot's fragment state (`get_mut` + assignment / `take_mut`). -/
def setFragment (st : FragmentStore) (i : Nat) (f : MaybeEvaluatedFragment) : FragmentStore :=
  { st with data := st.data.setP i (fun info => { info with fragment := some f }) }

/-- `remove`: clear the fragment field, then free the slot. -/
def removeFrag (st : FragmentStore) (i : Nat) : FragmentStore :=
  let d1 := st.data.setP i (fun info => { info with fragment := none })
  { st with data := d1.remove i }

/-- `set_args`: store new args and push the fragment on the dirty queue. -/
def set_args (st : FragmentStore) (i : Nat) (a : Nat) : FragmentStore :=
  { st with dirty_args := st.dirty_args ++ [i],
            data := st.data.setP i (fun info => { info with args := some a }) }

/-- `dirty_args()` (drain): most recently queued first; queue cleared. -/
def drainDirty (st : FragmentStore) : List Nat × FragmentStore :=
  (st.dirty_args.reverse, { st with dirty_args := [] })

end FragmentStore

/-! ### Layout collaborator and identity registry (external interfaces) -/

/-- Modelled from the spec: one layout node of the external layout
collaborator (`src/heart/layout.rs` is not among the analyzed sources);
`add_node(properties, payload, is_clipper) -> handle` plus an ordered child
list set through `set_children`. -/
structure LayoutNode where
  props : Nat
  payload : Option Nat
  clipper : Bool
  children : List Idx
deriving DecidableEq

/-- Modelled from the spec: the layout collaborator's node store; handles are
dense indices, `remove_node` is the last operation on a handle. -/
structure Layouter where
  nodes : List (Option LayoutNode)
deriving DecidableEq

namespace Layouter

/-- The node registered under a handle, `none` once removed. -/
def getNode (L : Layouter) (i : Idx) : Option LayoutNode :=
  (L.nodes[i]?).bind id

/-- `add_node`: register a node, children set later. -/
def addNode (L : Layouter) (p : Nat) (r : Option Nat) (c : Bool) : Layouter × Idx :=
  ({ nodes := L.nodes ++ [some ⟨p, r, c, []⟩] }, L.nodes.length)

/-- `set_children`. -/
def setChildrenL (L : Layouter) (i : Idx) (cs : List Idx) : Layouter :=
  match L.nodes[i]? with
  | some (some n) => { nodes := L.nodes.set i (some { n with children := cs }) }
  | _ => L

/-- `set_node`: replace properties, payload and clipper flag. -/
def setNode (L : Layouter) (i : Idx) (p : Nat) (r : Option Nat) (c : Bool) : Layouter :=
  match L.nodes[i]? with
  | some (some n) =>
    { nodes := L.nodes.set i (some { n with props := p, payload := r, clipper := c }) }
  | _ => L

/-- `remove_node`. -/
def removeNode (L : Layouter) (i : Idx) : Layouter :=
  { nodes := L.nodes.set i none }

end Layouter

/-! ### Evaluator state and driver (`EvaluatorInner`) -/

/-- The evaluator-visible mutable state: state store, fragment arena, layout
collaborator, identity registry (`KeyMap`, modelled from the spec as the set
of registered keys — its source is not among the analyzed files; the driver
only calls `remove` on it), and a ghost log recording each fragment whose
generator has been run. -/
structure EvalState (V : Type) where
  tree : PatchedTree V
  store : FragmentStore
  layout : Layouter
  keyMap : List Key
  log : List Nat
deriving DecidableEq

/-- `FragmentInner`, modelled from the spec: the description returned by a
generator — layout properties, optional render object, ordered child
fragments, clipper flag (`src/heart/fragment.rs` is not among the analyzed
sources; its `unpack()` yields exactly these four components). -/
structure FragmentInner where
  layout : Nat
  render_object : Option Nat
  children : List Nat
  is_clipper : Bool
deriving DecidableEq

/-- A generator environment: resolves a generator id to a pure function from
(fragment key, fragment index, state) to (state, description) — the shallow
embedding of `(gen)(&mut context)`. -/
def GEnv (V : Type) := GenId → Key → Nat → EvalState V → EvalState V × FragmentInner

/-- Fatal outcomes: fuel exhaustion of the embedding, `unwrap` on a missing
slot, wrong-variant access (`assert_evaluated` / `assert_unevaluated`), a
failed `unwrap` in the commit iterator, and the duplicate-sibling-key panic. -/
inductive EvalError where
  | fuel
  | missing
  | assertEvaluated
  | assertUnevaluated
  | unwrapFailed
  | dupKeys
deriving DecidableEq

/-- Layout handles of an (already evaluated) child list,
`children.iter().map(|c| store.get(c).assert_evaluated().layout_idx)`. -/
def childLayoutIdxs (st : FragmentStore) : List Nat → Option (List Idx)
  | [] => some []
  | c :: cs =>
    match st.get c with
    | some (.Evaluated e) => (childLayoutIdxs st cs).map (e.layout_idx :: ·)
    | _ => none

/-- `Vec::swap_remove`: replace position `i` by the last element, drop the
last. -/
def swapRemove {α : Type} (l : List α) (i : Nat) : List α :=
  match l.getLast? with
  | none => l
  | some last => (l.set i last).dropLast

/-- `EvaluatorInner::evaluate_unconditional`, over a worklist of fragments
(each call consumes one unit of fuel; child lists recurse at smaller fuel):
run the generator, register a layout node, recursively evaluate the children,
attach their layout handles, and replace the arena entry by an `Evaluated`
record (via `take_mut`, asserting the entry is still `Unevaluated`). -/
def evalUncondL {V : Type} (genv : GEnv V) : Nat → List Nat → EvalState V →
    Except EvalError (EvalState V)
  | _, [], s => .ok s
  | 0, _ :: _, _ => .error .fuel
  | fuel + 1, fidx :: rest, s =>
    match s.store.get fidx with
    | some (.Unevaluated key genId) =>
      let s1 := { s with log := s.log ++ [fidx] }
      let (s2, inner) := genv genId key fidx s1
      let (layout2, layoutIdx) :=
        s2.layout.addNode inner.layout inner.render_object inner.is_clipper
      let s3 := { s2 with layout := layout2 }
      match evalUncondL genv fuel inner.children s3 with
      | .error e => .error e
      | .ok s4 =>
        match childLayoutIdxs s4.store inner.children with
        | none => .error .assertEvaluated
        | some lidxs =>
          let s5 := { s4 with layout := s4.layout.setChildrenL layoutIdx lidxs }
          match s5.store.get fidx with
          | some (.Unevaluated key2 gen2) =>
            let st6 := s5.store.setFragment fidx
              (.Evaluated ⟨key2, gen2, layoutIdx, fidx, inner.children⟩)
            let s6 := { s5 with store := st6 }
            evalUncondL genv fuel rest s6
          | some (.Evaluated _) => .error .assertUnevaluated
          | none => .error .missing
    | some (.Evaluated _) => .error .assertUnevaluated
    | none => .error .missing

/-- `EvaluatorInner::remove_tree`, over a worklist: tear down the children
recursively, then release the state cells under the key, the layout node,
the identity-registry entry, and the fragment-arena slot. -/
def removeTreeL {V : Type} : Nat → List Nat → EvalState V →
    Except EvalError (EvalState V)
  | _, [], s => .ok s
  | 0, _ :: _, _ => .error .fuel
  | fuel + 1, frag :: rest, s =>
    match s.store.get frag with
    | some (.Evaluated e) =>
      match removeTreeL fuel e.children s with
      | .error er => .error er
      | .ok s1 =>
        let s2 : EvalState V :=
          { s1 with
              tree := s1.tree.remove_widget e.key,
              layout := s1.layout.removeNode e.layout_idx,
              keyMap := s1.keyMap.filter (· != e.key),
              store := s1.store.removeFrag e.store_idx }
        removeTreeL fuel rest s2
    | some (.Unevaluated _ _) => .error .assertEvaluated
    | none => .error .missing

/-- The new-children loop of `re_eval_fragment`: an `Unevaluated` child is
evaluated unconditionally; an `Evaluated` one is swap-removed from the old
children working set (matching by `Fragment` identity). Returns the state and
what remains of the old children. -/
def processNew {V : Type} (genv : GEnv V) : Nat → List Nat → List Nat → EvalState V →
    Except EvalError (EvalState V × List Nat)
  | _, [], olds, s => .ok (s, olds)
  | 0, _ :: _, _, _ => .error .fuel
  | fuel + 1, c :: cs, olds, s =>
    match s.store.get c with
    | some (.Unevaluated _ _) =>
      match evalUncondL genv fuel [c] s with
      | .error e => .error e
      | .ok s1 => processNew genv fuel cs olds s1
    | some (.Evaluated _) =>
      let olds1 :=
        match olds.findIdx? (· == c) with
        | some i => swapRemove olds i
        | none => olds
      processNew genv fuel cs olds1 s
    | none => .error .missing

/-- `EvaluatorInner::re_eval_fragment`: skip if the slot was already freed;
evaluate unconditionally if still `Unevaluated`; otherwise re-run the
generator, reconcile old and new children, update the layout node (children
skipped when both counts are zero), store the new child list, and tear down
the unmatched old children. -/
def reEvalFragment {V : Type} (genv : GEnv V) (fuel : Nat) (fragIdx : Nat)
    (s : EvalState V) : Except EvalError (EvalState V) :=
  if s.store.removedCheck fragIdx then .ok s
  else
    match s.store.get fragIdx with
    | some (.Unevaluated _ _) => evalUncondL genv fuel [fragIdx] s
    | some (.Evaluated e) =>
      let s1 := { s with log := s.log ++ [fragIdx] }
      let (s2, inner) := genv e.gen e.key fragIdx s1
      match s2.store.get fragIdx with
      | some (.Evaluated e1) =>
        let olds0 := e1.children
        let layoutIdx := e1.layout_idx
        let st3 := s2.store.setFragment fragIdx (.Evaluated { e1 with children := [] })
        let s3 := { s2 with store := st3 }
        let numNew := inner.children.length
        let numOld := olds0.length
        match processNew genv fuel inner.children olds0 s3 with
        | .error er => .error er
        | .ok (s4, remaining) =>
          match (if numOld ≠ 0 ∨ numNew ≠ 0 then
              (childLayoutIdxs s4.store inner.children).map
                (fun l => s4.layout.setChildrenL layoutIdx l)
            else some s4.layout) with
          | none => .error .assertEvaluated
          | some layout5 =>
            let s5 := { s4 with layout := layout5 }
            match s5.store.get fragIdx with
            | some (.Evaluated e2) =>
              let s6 := { s5 with
                  store := s5.store.setFragment fragIdx
                    (.Evaluated { e2 with children := inner.children }),
                  layout := s5.layout.setNode e2.layout_idx inner.layout
                    inner.render_object inner.is_clipper }
              removeTreeL fuel remaining s6
            | _ => .error .assertEvaluated
      | _ => .error .assertEvaluated
    | none => .error .missing

/-- Worklist of `re_eval_fragment` calls (the `for` loops in `update`). -/
def reEvalList {V : Type} (genv : GEnv V) (fuel : Nat) : List Nat → EvalState V →
    Except EvalError (EvalState V)
  | [], s => .ok s
  | f :: fs, s =>
    match reEvalFragment genv fuel f s with
    | .error e => .error e
    | .ok s' => reEvalList genv fuel fs s'

/-- The dirty-args fixpoint loop of `update`: drain the queue, re-evaluate
every drained fragment, stop when a drain returns zero entries. -/
def updateLoop {V : Type} (genv : GEnv V) : Nat → EvalState V →
    Except EvalError (EvalState V)
  | 0, _ => .error .fuel
  | fuel + 1, s =>
    let dd := s.store.drainDirty
    let ds := dd.1
    let s1 := { s with store := dd.2 }
    if ds.isEmpty then .ok s1
    else
      match reEvalList genv fuel ds s1 with
      | .error e => .error e
      | .ok s2 => updateLoop genv fuel s2

/-- `for key in touched: for frag in tree.dependents(key): to_update.insert`:
consume the dependent sets of the touched cells into a deduplicated set. -/
def collectDeps {V : Type} : List HookRef → PatchedTree V → List Nat →
    List Nat × PatchedTree V
  | [], t, acc => (acc, t)
  | r :: rest, t, acc =>
    let dt := t.dependents_take r.2
    collectDeps rest dt.2 (dt.1.foldl (fun a f => if f ∈ a then a else a ++ [f]) acc)

/-- The to-update set derived from committing a state. -/
def toUpdateOf {V : Type} (s : EvalState V) : List Nat :=
  match s.tree.update_tree with
  | none => []
  | some (t1, touched) => (collectDeps touched t1 []).1

/-- `EvaluatorInner::update`: commit, derive the to-update set, return `false`
if it is empty; otherwise re-evaluate it, run the dirty-args fixpoint loop,
and return `true`. -/
def update {V : Type} (genv : GEnv V) (fuel : Nat) (s : EvalState V) :
    Except EvalError (Bool × EvalState V) :=
  match s.tree.update_tree with
  | none => .error .unwrapFailed
  | some (t1, touched) =>
    let ctd := collectDeps touched t1 []
    let tu := ctd.1
    let s1 := { s with tree := ctd.2 }
    if tu.isEmpty then .ok (false, s1)
    else
      match reEvalList genv fuel tu s1 with
      | .error e => .error e
      | .ok s2 =>
        match updateLoop genv fuel s2 with
        | .error e => .error e
        | .ok s3 => .ok (true, s3)

/-- `EvaluatorInner::check_unique_keys_children` inner loop. -/
def checkUniqueGo : List Key → List Key → Except EvalError Unit
  | _, [] => .ok ()
  | seen, k :: rest =>
    if k ∈ seen then .error .dupKeys else checkUniqueGo (k :: seen) rest

/-- `EvaluatorInner::check_unique_keys_children`: panics (fatal) iff the
children keys contain a duplicate. Defined in the source but never invoked. -/
def check_unique_keys_children (children_keys : List Key) : Except EvalError Unit :=
  checkUniqueGo [] children_keys

/-! ### Claim C9: stale re-evaluation requests are silently skipped -/

theorem removedB_eq_true_iff_get_none {α : Type} (fl : FreeList α) (i : Nat) :
    fl.removedB i = true ↔ fl.get i = none := by
  unfold FreeList.removedB FreeList.get
  cases hi : fl.slots[i]? with
  | none => simp
  | some p =>
    obtain ⟨b, v⟩ := p
    cases b <;> simp

theorem removedCheck_iff_get_none (st : FragmentStore) (i : Nat) :
    st.removedCheck i = true ↔ st.get i = none := by
  unfold FragmentStore.removedCheck FragmentStore.get
  cases hd : st.data.get i with
  | none =>
    have hb : st.data.removedB i = true := (removedB_eq_true_iff_get_none st.data i).mpr hd
    simp [hb]
  | some info =>
    have hb : st.data.removedB i = false := by
      cases hbc : st.data.removedB i with
      | false => rfl
      | true => rw [(removedB_eq_true_iff_get_none st.data i).mp hbc] at hd; cases hd
    simp [hb, Option.isNone_iff_eq_none]

/-- C9: when the liveness check fires (slot freed or fragment field absent —
exactly what `removed` decides), `re_eval_fragment` is a silent no-op: it
returns the state unchanged, so no generator runs, no state cell is touched,
and neither the fragment store nor the layout tree changes. -/
theorem re_eval_removed_skips {V : Type} (genv : GEnv V) (fuel fragIdx : Nat)
    (s : EvalState V) (h : s.store.removedCheck fragIdx = true) :
    reEvalFragment genv fuel fragIdx s = .ok s ∧
    (s.store.removedCheck fragIdx = true ↔ s.store.get fragIdx = none) :=
  ⟨by simp [reEvalFragment, h], removedCheck_iff_get_none s.store fragIdx⟩

/-- A trivial generator environment (returns an empty description). -/
def genvTriv : GEnv Nat := fun _ _ _ s => (s, ⟨0, none, [], false⟩)

/-- A state whose fragment slot 0 has been freed. -/
def c9State : EvalState Nat :=
  { tree := PatchedTree.empty,
    store := ⟨⟨[(false, ⟨none, none⟩)], [0]⟩, []⟩,
    layout := ⟨[]⟩,
    keyMap := [],
    log := [] }

/-- Witness for C9: a freed slot is skipped. -/
theorem re_eval_removed_skips_witness :
    c9State.store.removedCheck 0 = true ∧
    reEvalFragment genvTriv 3 0 c9State = .ok c9State :=
  ⟨by decide, (re_eval_removed_skips genvTriv 3 0 c9State (by decide)).1⟩

/-! ### Claim C1: duplicate sibling keys at reconciliation -/

/-- `Except.isOk` as a plain boolean. -/
def isOkE {ε α : Type} : Except ε α → Bool
  | .ok _ => true
  | .error _ => false

/-- Generators for the C1 run: fragment 0 (the parent) declares children
1 and 2; every other generator declares no children. -/
def c1Genv : GEnv Nat := fun g _ _ s =>
  if g = 0 then (s, ⟨0, none, [1, 2], false⟩) else (s, ⟨0, none, [], false⟩)

/-- Parent fragment 0 evaluated with no children; fragments 1 and 2 both
unevaluated and both carrying key 7. -/
def c1State : EvalState Nat :=
  { tree := PatchedTree.empty,
    store := ⟨⟨[(true, ⟨some (.Evaluated ⟨1, 0, 0, 0, []⟩), none⟩),
               (true, ⟨some (.Unevaluated 7 1), none⟩),
               (true, ⟨some (.Unevaluated 7 2), none⟩)], []⟩, []⟩,
    layout := ⟨[some ⟨0, none, false, []⟩]⟩,
    keyMap := [],
    log := [] }

/-- C1 (divergence exhibited): re-evaluating the parent whose new child list
carries the duplicate key 7 twice completes without any fault, because
`check_unique_keys_children` — which does fail on exactly these keys — is
never invoked by `re_eval_fragment` (it is dead code in the source). -/
theorem re_eval_accepts_duplicate_keys :
    isOkE (reEvalFragment c1Genv 9 0 c1State) = true ∧
    (c1State.store.get 1).map MaybeEvaluatedFragment.keyOf = some 7 ∧
    (c1State.store.get 2).map MaybeEvaluatedFragment.keyOf = some 7 ∧
    (c1Genv 0 1 0 c1State).2.children = [1, 2] ∧
    check_unique_keys_children [7, 7] = .error .dupKeys := by
  refine ⟨by decide, by decide, by decide, by decide, by rfl⟩

/-! ### Claim C6: `update` reports change iff the to-update set is nonempty -/

/-- C6: `update` returns `false` exactly when the to-update set derived from
the commit is empty, and in that case it runs no generator and leaves the
fragment store, the layout tree, and the identity registry unchanged (only
the state store advances by the commit). A second update with no intervening
write falls under this case, since its commit touches no keys. -/
theorem update_changed_iff {V : Type} (genv : GEnv V) (fuel : Nat) (s : EvalState V)
    (b : Bool) (s' : EvalState V) (h : update genv fuel s = .ok (b, s')) :
    (b = true ↔ toUpdateOf s ≠ []) ∧
    (toUpdateOf s = [] →
      s'.store = s.store ∧ s'.layout = s.layout ∧ s'.keyMap = s.keyMap ∧ s'.log = s.log) := by
  unfold update at h
  cases hu : s.tree.update_tree with
  | none => rw [hu] at h; cases h
  | some p =>
    obtain ⟨t1, touched⟩ := p
    rw [hu] at h
    dsimp only at h
    have hto : toUpdateOf s = (collectDeps touched t1 []).1 := by
      unfold toUpdateOf
      rw [hu]
    split at h
    case isTrue hcond =>
      simp only [Except.ok.injEq, Prod.mk.injEq] at h
      obtain ⟨hb, hs⟩ := h
      have hnil : (collectDeps touched t1 []).1 = [] := List.isEmpty_iff.mp hcond
      constructor
      · rw [← hb, hto, hnil]
        simp
      · intro _
        rw [← hs]
        exact ⟨rfl, rfl, rfl, rfl⟩
    case isFalse hcond =>
      have hnn : (collectDeps touched t1 []).1 ≠ [] := by
        intro hc
        rw [hc] at hcond
        exact hcond rfl
      split at h
      · cases h
      · split at h
        · cases h
        · simp only [Except.ok.injEq, Prod.mk.injEq] at h
          obtain ⟨hb, hs⟩ := h
          constructor
          · rw [← hb]
            simp [hto, hnn]
          · intro hc
            rw [hto] at hc
            exact absurd hc hnn

/-- An empty evaluator state. -/
def c6State : EvalState Nat :=
  { tree := PatchedTree.empty, store := ⟨⟨[], []⟩, []⟩, layout := ⟨[]⟩,
    keyMap := [], log := [] }

/-- Witness for C6: an update with nothing buffered reports no change and
leaves everything unchanged. -/
theorem update_changed_iff_witness :
    update genvTriv 1 c6State = .ok (false, c6State) ∧
    ((false = true ↔ toUpdateOf c6State ≠ []) ∧
      (toUpdateOf c6State = [] →
        c6State.store = c6State.store ∧ c6State.layout = c6State.layout ∧
        c6State.keyMap = c6State.keyMap ∧ c6State.log = c6State.log)) :=
  ⟨by rfl, update_changed_iff genvTriv 1 c6State false c6State (by rfl)⟩

/-! ### Claim C7: the dirty-args fixpoint loop on an argument chain -/

theorem set_args_get (st : FragmentStore) (i a j : Nat) :
    (st.set_args i a).get j = st.get j := by
  unfold FragmentStore.set_args FragmentStore.get
  by_cases hji : j = i
  · subst hji
    cases hd : st.data.get j with
    | none => simp [FreeList.get_setP_none _ _ _ hd, hd]
    | some info => simp [FreeList.get_setP_self _ _ _ _ hd, hd]
  · rw [FreeList.get_setP_ne _ _ _ _ hji]

theorem setFragment_get_ne (st : FragmentStore) (i j : Nat) (f : MaybeEvaluatedFragment)
    (h : j ≠ i) : (st.setFragment i f).get j = st.get j := by
  unfold FragmentStore.setFragment FragmentStore.get
  rw [FreeList.get_setP_ne _ _ _ _ h]

theorem setFragment_get_self (st : FragmentStore) (i : Nat) (f g : MaybeEvaluatedFragment)
    (h : st.get i = some g) : (st.setFragment i f).get i = some f := by
  unfold FragmentStore.setFragment FragmentStore.get
  unfold FragmentStore.get at h
  cases hd : st.data.get i with
  | none => rw [hd] at h; cases h
  | some info => rw [FreeList.get_setP_self _ _ _ _ hd]; rfl

theorem removedCheck_false_of_get (st : FragmentStore) (i : Nat)
    (f : MaybeEvaluatedFragment) (h : st.get i = some f) :
    st.removedCheck i = false := by
  cases hb : st.removedCheck i with
  | false => rfl
  | true => rw [(removedCheck_iff_get_none st i).mp hb] at h; cases h

/-- The generator environment of an argument-propagation chain of length `N`:
re-evaluating fragment `i` sets new arguments on exactly fragment `i + 1`
(the last sets none); every description is empty. -/
def chainGenv (N : Nat) : GEnv Nat := fun g _ _ s =>
  if g + 1 < N then ({ s with store := s.store.set_args (g + 1) 0 }, ⟨0, none, [], false⟩)
  else (s, ⟨0, none, [], false⟩)

/-- One chain slot: fragment `j` is evaluated, childless, is its own arena
slot, and carries generator id `j`. -/
def chainSlotOk (st : FragmentStore) (j : Nat) : Prop :=
  match st.get j with
  | some (.Evaluated e) => e.gen = j ∧ e.children = []
  | _ => False

instance chainSlotOkDec (st : FragmentStore) (j : Nat) : Decidable (chainSlotOk st j) :=
  match h : st.get j with
  | some (.Evaluated e) =>
    decidable_of_iff (e.gen = j ∧ e.children = []) (by unfold chainSlotOk; rw [h])
  | some (.Unevaluated _ _) => decidable_of_iff False (by unfold chainSlotOk; rw [h])
  | none => decidable_of_iff False (by unfold chainSlotOk; rw [h])

theorem removeTreeL_nil {V : Type} (fuel : Nat) (s : EvalState V) :
    removeTreeL fuel [] s = .ok s := by
  cases fuel with
  | zero => rfl
  | succ n => rfl

/-- One step of the chain: re-evaluating fragment `k` succeeds, queues exactly
fragment `k + 1` (or nothing if `k` is last), and preserves the chain slots
above `k`. -/
theorem chain_step (N k fuel : Nat) (s : EvalState Nat) (hk : k < N)
    (hslots : ∀ j, j < N → k ≤ j → chainSlotOk s.store j)
    (hdirty : s.store.dirty_args = []) :
    ∃ s2, reEvalFragment (chainGenv N) fuel k s = .ok s2 ∧
      s2.store.dirty_args = (if k + 1 < N then [k + 1] else []) ∧
      (∀ j, j < N → k + 1 ≤ j → chainSlotOk s2.store j) := by
  have hok := hslots k hk (le_refl k)
  unfold chainSlotOk at hok
  cases hget : s.store.get k with
  | none => rw [hget] at hok; exact absurd hok (by simp)
  | some mf =>
    rw [hget] at hok
    cases mf with
    | Unevaluated _ _ => exact absurd hok (by simp)
    | Evaluated e =>
      obtain ⟨hgen, hch⟩ := hok
      obtain ⟨ekey, egen, eli, esi, ech⟩ := e
      simp only at hgen hch
      subst egen
      subst ech
      have hrm : s.store.removedCheck k = false :=
        removedCheck_false_of_get s.store k _ hget
      by_cases hkk : k + 1 < N
      · have hga : ((s.store.set_args (k + 1) 0).get k) =
            some (.Evaluated ⟨ekey, k, eli, esi, []⟩) := by
          rw [set_args_get]; exact hget
        have hgb : (((s.store.set_args (k + 1) 0).setFragment k
              (.Evaluated ⟨ekey, k, eli, esi, []⟩)).get k) =
            some (.Evaluated ⟨ekey, k, eli, esi, []⟩) :=
          setFragment_get_self _ _ _ _ hga
        refine
          ⟨{ tree := s.tree,
             store := ((s.store.set_args (k + 1) 0).setFragment k
                         (.Evaluated ⟨ekey, k, eli, esi, []⟩)).setFragment k
                         (.Evaluated ⟨ekey, k, eli, esi, []⟩),
             layout := s.layout.setNode eli 0 none false,
             keyMap := s.keyMap,
             log := s.log ++ [k] }, ?_, ?_, ?_⟩
        · unfold reEvalFragment
          simp only [hrm, Bool.false_eq_true, if_false, hget, chainGenv, hkk, if_true,
            processNew, List.length_nil, ne_eq, not_true_eq_false, not_false_eq_true,
            or_self, hga, hgb]
          exact removeTreeL_nil fuel _
        · show ((((s.store.set_args (k + 1) 0).setFragment k
              (.Evaluated ⟨ekey, k, eli, esi, []⟩)).setFragment k
              (.Evaluated ⟨ekey, k, eli, esi, []⟩)).dirty_args) = _
          simp only [FragmentStore.setFragment, FragmentStore.set_args, hdirty, hkk, if_true,
            List.nil_append]
        · intro j hjN hjk
          have hne : j ≠ k := by omega
          unfold chainSlotOk
          show (match ((((s.store.set_args (k + 1) 0).setFragment k
              (.Evaluated ⟨ekey, k, eli, esi, []⟩)).setFragment k
              (.Evaluated ⟨ekey, k, eli, esi, []⟩)).get j) with
            | some (.Evaluated e) => e.gen = j ∧ e.children = []
            | _ => False)
          rw [setFragment_get_ne _ _ _ _ hne, setFragment_get_ne _ _ _ _ hne, set_args_get]
          have := hslots j hjN (by omega)
          unfold chainSlotOk at this
          exact this
      · have hgb : ((s.store.setFragment k
              (.Evaluated ⟨ekey, k, eli, esi, []⟩)).get k) =
            some (.Evaluated ⟨ekey, k, eli, esi, []⟩) :=
          setFragment_get_self _ _ _ _ hget
        refine
          ⟨{ tree := s.tree,
             store := (s.store.setFragment k
                         (.Evaluated ⟨ekey, k, eli, esi, []⟩)).setFragment k
                         (.Evaluated ⟨ekey, k, eli, esi, []⟩),
             layout := s.layout.setNode eli 0 none false,
             keyMap := s.keyMap,
             log := s.log ++ [k] }, ?_, ?_, ?_⟩
        · unfold reEvalFragment
          simp only [hrm, Bool.false_eq_true, if_false, hget, chainGenv, hkk, if_true,
            processNew, List.length_nil, ne_eq, not_true_eq_false, not_false_eq_true,
            or_self, hgb]
          exact removeTreeL_nil fuel _
        · show (((s.store.setFragment k
              (.Evaluated ⟨ekey, k, eli, esi, []⟩)).setFragment k
              (.Evaluated ⟨ekey, k, eli, esi, []⟩)).dirty_args) = _
          simp only [FragmentStore.setFragment, hdirty, hkk, if_false]
        · intro j hjN hjk
          have hne : j ≠ k := by omega
          unfold chainSlotOk
          show (match (((s.store.setFragment k
              (.Evaluated ⟨ekey, k, eli, esi, []⟩)).setFragment k
              (.Evaluated ⟨ekey, k, eli, esi, []⟩)).get j) with
            | some (.Evaluated e) => e.gen = j ∧ e.children = []
            | _ => False)
          rw [setFragment_get_ne _ _ _ _ hne, setFragment_get_ne _ _ _ _ hne]
          have := hslots j hjN (by omega)
          unfold chainSlotOk at this
          exact this

theorem updateLoop_succ {V : Type} (genv : GEnv V) (fuel : Nat) (s : EvalState V) :
    updateLoop genv (fuel + 1) s =
      (if s.store.dirty_args.reverse.isEmpty then
        Except.ok ({ s with store := { s.store with dirty_args := [] } } : EvalState V)
      else
        match reEvalList genv fuel s.store.dirty_args.reverse
            ({ s with store := { s.store with dirty_args := [] } } : EvalState V) with
        | .error e => .error e
        | .ok s2 => updateLoop genv fuel s2) := rfl

/-- The chain loop succeeds with fuel for the remaining `m` processing drains
plus one final empty drain. -/
theorem chain_loop_ok (N : Nat) :
    ∀ m k (s : EvalState Nat), k + m = N →
    s.store.dirty_args = (if k < N then [k] else []) →
    (∀ j, j < N → k ≤ j → chainSlotOk s.store j) →
    ∃ s', updateLoop (chainGenv N) (m + 1) s = .ok s' ∧ s'.store.dirty_args = [] := by
  intro m
  induction m with
  | zero =>
    intro k s hkm hd _
    have hk : ¬ k < N := by omega
    have hds : s.store.dirty_args = [] := by rw [hd, if_neg hk]
    refine ⟨{ s with store := { s.store with dirty_args := [] } }, ?_, rfl⟩
    rw [updateLoop_succ, hds]
    rfl
  | succ m ih =>
    intro k s hkm hd hs
    have hk : k < N := by omega
    have hd1 : s.store.dirty_args = [k] := by rw [hd, if_pos hk]
    obtain ⟨s2, hre, hd2, hs2⟩ := chain_step N k (m + 1)
      { s with store := { s.store with dirty_args := [] } } hk
      (fun j hj hkj => hs j hj hkj) rfl
    have hrel : reEvalList (chainGenv N) (m + 1) [k]
        { s with store := { s.store with dirty_args := [] } } = .ok s2 := by
      unfold reEvalList
      rw [hre]
      rfl
    obtain ⟨s', hloop, hd'⟩ := ih (k + 1) s2 (by omega) hd2 hs2
    refine ⟨s', ?_, hd'⟩
    rw [updateLoop_succ, hd1]
    simp only [List.reverse_cons, List.reverse_nil, List.nil_append, List.isEmpty_cons,
      Bool.false_eq_true, if_false]
    rw [hrel]
    exact hloop

/-- With only `m` drains of fuel the chain loop runs out before converging. -/
theorem chain_loop_fuel (N : Nat) :
    ∀ m k (s : EvalState Nat), k + m = N →
    s.store.dirty_args = (if k < N then [k] else []) →
    (∀ j, j < N → k ≤ j → chainSlotOk s.store j) →
    updateLoop (chainGenv N) m s = .error .fuel := by
  intro m
  induction m with
  | zero => intro k s _ _ _; rfl
  | succ m ih =>
    intro k s hkm hd hs
    have hk : k < N := by omega
    have hd1 : s.store.dirty_args = [k] := by rw [hd, if_pos hk]
    obtain ⟨s2, hre, hd2, hs2⟩ := chain_step N k m
      { s with store := { s.store with dirty_args := [] } } hk
      (fun j hj hkj => hs j hj hkj) rfl
    have hrel : reEvalList (chainGenv N) m [k]
        { s with store := { s.store with dirty_args := [] } } = .ok s2 := by
      unfold reEvalList
      rw [hre]
      rfl
    rw [updateLoop_succ, hd1]
    simp only [List.reverse_cons, List.reverse_nil, List.nil_append, List.isEmpty_cons,
      Bool.false_eq_true, if_false]
    rw [hrel]
    exact ih (k + 1) s2 (by omega) hd2 hs2

/-- C7: on an argument-propagation chain of `N` fragments (re-evaluating
fragment `i` sets new arguments on exactly fragment `i + 1`, the last sets
none), the dirty-args fixpoint loop of `update` converges after `N` drain
iterations — fuel for `N + 1` drains returns with an empty queue, the final
drain yielding zero entries, while fuel for only `N` drains is exhausted. -/
theorem chain_fixpoint (N : Nat) (s : EvalState Nat)
    (hd : s.store.dirty_args = (if 0 < N then [0] else []))
    (hs : ∀ j, j < N → chainSlotOk s.store j) :
    (∃ s', updateLoop (chainGenv N) (N + 1) s = .ok s' ∧ s'.store.dirty_args = []) ∧
    updateLoop (chainGenv N) N s = .error .fuel :=
  ⟨chain_loop_ok N N 0 s (by omega) hd (fun j hj _ => hs j hj),
   chain_loop_fuel N N 0 s (by omega) hd (fun j hj _ => hs j hj)⟩

/-- A concrete chain of two fragments, fragment 0 queued. -/
def chain2State : EvalState Nat :=
  { tree := PatchedTree.empty,
    store := ⟨⟨[(true, ⟨some (.Evaluated ⟨0, 0, 0, 0, []⟩), none⟩),
               (true, ⟨some (.Evaluated ⟨1, 1, 1, 1, []⟩), none⟩)], []⟩, [0]⟩,
    layout := ⟨[]⟩, keyMap := [], log := [] }

/-- Witness for C7 on the length-2 chain. -/
theorem chain_fixpoint_witness :
    (chain2State.store.dirty_args = (if 0 < 2 then [0] else []) ∧
      ∀ j, j < 2 → chainSlotOk chain2State.store j) ∧
    ((∃ s', updateLoop (chainGenv 2) 3 chain2State = .ok s' ∧ s'.store.dirty_args = []) ∧
      updateLoop (chainGenv 2) 2 chain2State = .error .fuel) :=
  ⟨⟨by rfl, by decide⟩, chain_fixpoint 2 chain2State (by rfl) (by decide)⟩

/-! ### Claim C4: `remove_tree` releases everything, recursively -/

/-- No resolution map entry remains for the key. -/
def keyGone {V : Type} (t : PatchedTree V) (k : Nat) : Prop :=
  lookupA t.keyToIdx k = none

/-- The state cell is freed. -/
def cellGone {V : Type} (t : PatchedTree V) (i : Nat) : Prop :=
  t.data.get i = none

theorem keyGone_remove_widget {V : Type} (t : PatchedTree V) (k k' : Nat)
    (h : keyGone t k) : keyGone (t.remove_widget k') k := by
  unfold keyGone PatchedTree.remove_widget at *
  cases hl : lookupA t.keyToIdx k' with
  | none => exact h
  | some inner =>
    by_cases hkk : k = k'
    · subst hkk; exact lookupA_eraseA_self _ _
    · rw [lookupA_eraseA_ne _ _ _ hkk]; exact h

theorem keyGone_remove_widget_self {V : Type} (t : PatchedTree V) (k : Nat) :
    keyGone (t.remove_widget k) k := by
  unfold keyGone PatchedTree.remove_widget
  cases hl : lookupA t.keyToIdx k with
  | none => exact hl
  | some inner => exact lookupA_eraseA_self _ _

theorem cellGone_remove_widget {V : Type} (t : PatchedTree V) (k i : Nat)
    (h : cellGone t i) : cellGone (t.remove_widget k) i := by
  unfold cellGone PatchedTree.remove_widget at *
  cases hl : lookupA t.keyToIdx k with
  | none => exact h
  | some inner => exact foldRemove_get_none_mono inner _ _ h

theorem cellGone_remove_widget_of_mem {V : Type} (t : PatchedTree V) (k idx : Nat)
    (inner : List (Nat × Nat)) (hin : lookupA t.keyToIdx k = some inner)
    (hmem : idx ∈ inner.map (·.2)) : cellGone (t.remove_widget k) idx := by
  unfold cellGone PatchedTree.remove_widget
  rw [hin]
  exact foldRemove_get_none_of_mem inner _ _ hmem

theorem lookupA_remove_widget_ne {V : Type} (t : PatchedTree V) (k k' : Nat)
    (h : k ≠ k') : lookupA (t.remove_widget k').keyToIdx k = lookupA t.keyToIdx k := by
  unfold PatchedTree.remove_widget
  cases hl : lookupA t.keyToIdx k' with
  | none => rfl
  | some inner => exact lookupA_eraseA_ne _ _ _ h

theorem getNode_removeNode_self (L : Layouter) (i : Nat) :
    (L.removeNode i).getNode i = none := by
  unfold Layouter.removeNode Layouter.getNode
  by_cases h : i < L.nodes.length
  · simp [List.getElem?_set_self h]
  · have hle : L.nodes.length ≤ i := Nat.le_of_not_lt h
    rw [List.set_eq_of_length_le hle]
    simp [List.getElem?_eq_none hle]

theorem getNode_removeNode_mono (L : Layouter) (i j : Nat)
    (h : L.getNode j = none) : (L.removeNode i).getNode j = none := by
  by_cases hij : j = i
  · subst hij; exact getNode_removeNode_self L j
  · unfold Layouter.removeNode Layouter.getNode at *
    rw [List.getElem?_set_ne (Ne.symm hij)]
    exact h

theorem not_mem_filter_self (l : List Nat) (k : Nat) : k ∉ l.filter (· != k) := by
  intro hm
  have := List.of_mem_filter hm
  simp at this

theorem not_mem_filter_mono (l : List Nat) (k k' : Nat) (h : k ∉ l) :
    k ∉ l.filter (· != k') := by
  intro hm
  exact h (List.mem_of_mem_filter hm)

theorem removeFrag_get_self (st : FragmentStore) (i : Nat) :
    (st.removeFrag i).get i = none := by
  unfold FragmentStore.removeFrag FragmentStore.get
  rw [FreeList.get_remove_self]
  rfl

theorem removeFrag_get_ne (st : FragmentStore) (i j : Nat) (h : j ≠ i) :
    (st.removeFrag i).get j = st.get j := by
  unfold FragmentStore.removeFrag FragmentStore.get
  rw [FreeList.get_remove_ne _ _ _ h, FreeList.get_setP_ne _ _ _ _ h]

theorem removeFrag_get_mono (st : FragmentStore) (i j : Nat)
    (h : st.get j = none) : (st.removeFrag i).get j = none := by
  by_cases hij : j = i
  · subst hij; exact removeFrag_get_self st j
  · rw [removeFrag_get_ne _ _ _ hij]; exact h

/-- Everything `remove_tree` can do is remove: gone things stay gone. -/
def RemovalMono {V : Type} (s s' : EvalState V) : Prop :=
  (∀ k, keyGone s.tree k → keyGone s'.tree k) ∧
  (∀ i, cellGone s.tree i → cellGone s'.tree i) ∧
  (∀ i, s.layout.getNode i = none → s'.layout.getNode i = none) ∧
  (∀ k, k ∉ s.keyMap → k ∉ s'.keyMap) ∧
  (∀ i, s.store.get i = none → s'.store.get i = none)

theorem removalMono_rfl {V : Type} (s : EvalState V) : RemovalMono s s :=
  ⟨fun _ h => h, fun _ h => h, fun _ h => h, fun _ h => h, fun _ h => h⟩

theorem removalMono_trans {V : Type} {s t u : EvalState V}
    (h1 : RemovalMono s t) (h2 : RemovalMono t u) : RemovalMono s u :=
  ⟨fun k h => h2.1 k (h1.1 k h),
   fun i h => h2.2.1 i (h1.2.1 i h),
   fun i h => h2.2.2.1 i (h1.2.2.1 i h),
   fun k h => h2.2.2.2.1 k (h1.2.2.2.1 k h),
   fun i h => h2.2.2.2.2 i (h1.2.2.2.2 i h)⟩

/-- The tear-down step of `remove_tree` only removes. -/
theorem removalMono_step {V : Type} (s1 : EvalState V) (e : EvaluatedFragment) :
    RemovalMono s1
      ({ s1 with
          tree := s1.tree.remove_widget e.key,
          layout := s1.layout.removeNode e.layout_idx,
          keyMap := s1.keyMap.filter (· != e.key),
          store := s1.store.removeFrag e.store_idx } : EvalState V) :=
  ⟨fun _ h => keyGone_remove_widget _ _ _ h,
   fun _ h => cellGone_remove_widget _ _ _ h,
   fun _ h => getNode_removeNode_mono _ _ _ h,
   fun _ h => not_mem_filter_mono _ _ _ h,
   fun _ h => removeFrag_get_mono _ _ _ h⟩

theorem removeTreeL_mono {V : Type} :
    ∀ (fuel : Nat) (l : List Nat) (s s' : EvalState V),
    removeTreeL fuel l s = .ok s' → RemovalMono s s' := by
  intro fuel
  induction fuel with
  | zero =>
    intro l s s' h
    cases l with
    | nil => cases h; exact removalMono_rfl s
    | cons f rest => cases h
  | succ fuel ih =>
    intro l s s' h
    cases l with
    | nil => cases h; exact removalMono_rfl s
    | cons f rest =>
      unfold removeTreeL at h
      cases hg : s.store.get f with
      | none => rw [hg] at h; cases h
      | some mf =>
        rw [hg] at h
        cases mf with
        | Unevaluated _ _ => cases h
        | Evaluated e =>
          dsimp only at h
          cases h1 : removeTreeL fuel e.children s with
          | error er => rw [h1] at h; cases h
          | ok s1 =>
            rw [h1] at h
            exact removalMono_trans (removalMono_trans (ih _ _ _ h1)
              (removalMono_step s1 e)) (ih _ _ _ h)

/-- The fragments visited by `remove_tree` (depth-first, children before
siblings), read in a fixed store; `none` when the traversal hits a missing or
unevaluated slot or runs out of fuel. -/
def subtreeList : Nat → FragmentStore → List Nat → Option (List Nat)
  | _, _, [] => some []
  | 0, _, _ :: _ => none
  | fuel + 1, st, f :: rest =>
    match st.get f with
    | some (.Evaluated e) =>
      match subtreeList fuel st e.children, subtreeList fuel st rest with
      | some a, some b => some (f :: (a ++ b))
      | _, _ => none
    | _ => none

theorem subtreeList_congr {fuel : Nat} :
    ∀ (l : List Nat) (st st' : FragmentStore) (ds : List Nat),
    subtreeList fuel st l = some ds → (∀ x ∈ ds, st'.get x = st.get x) →
    subtreeList fuel st' l = some ds := by
  induction fuel with
  | zero =>
    intro l st st' ds h _
    cases l with
    | nil => exact h
    | cons f r => cases h
  | succ fuel ih =>
    intro l st st' ds h hagree
    cases l with
    | nil => exact h
    | cons f rest =>
      unfold subtreeList at h ⊢
      cases hg : st.get f with
      | none => rw [hg] at h; cases h
      | some mf =>
        rw [hg] at h
        cases mf with
        | Unevaluated _ _ => cases h
        | Evaluated e =>
          dsimp only at h
          cases ha : subtreeList fuel st e.children with
          | none => rw [ha] at h; cases h
          | some a =>
            rw [ha] at h
            cases hb : subtreeList fuel st rest with
            | none => rw [hb] at h; cases h
            | some b =>
              rw [hb] at h
              dsimp only at h
              have hds : ds = f :: (a ++ b) := by cases h; rfl
              subst hds
              have hf : st'.get f = st.get f := hagree f (by simp)
              rw [hf, hg]
              dsimp only
              rw [ih e.children st st' a ha (fun x hx => hagree x (by simp [hx]))]
              rw [ih rest st st' b hb (fun x hx => hagree x (by simp [hx]))]

/-- The `store_idx` of an evaluated fragment is its own slot (the invariant
`evaluate_unconditional` establishes). -/
def selfIdxAt (st : FragmentStore) (d : Nat) : Prop :=
  match st.get d with
  | some (.Evaluated e) => e.store_idx = d
  | _ => True

instance selfIdxAtDec (st : FragmentStore) (d : Nat) : Decidable (selfIdxAt st d) :=
  match h : st.get d with
  | some (.Evaluated e) => decidable_of_iff (e.store_idx = d) (by unfold selfIdxAt; rw [h])
  | some (.Unevaluated _ _) => decidable_of_iff True (by unfold selfIdxAt; rw [h])
  | none => decidable_of_iff True (by unfold selfIdxAt; rw [h])

/-- The fragment at `d` (if evaluated) does not carry key `k`. -/
def keyNotAt (st : FragmentStore) (k d : Nat) : Prop :=
  match st.get d with
  | some (.Evaluated e) => e.key ≠ k
  | _ => True

/-- Distinct fragments carry distinct keys (pairwise key uniqueness). -/
def keysInjAt (st : FragmentStore) (d1 d2 : Nat) : Prop :=
  match st.get d1, st.get d2 with
  | some (.Evaluated e1), some (.Evaluated e2) => e1.key = e2.key → d1 = d2
  | _, _ => True

instance keysInjAtDec (st : FragmentStore) (d1 d2 : Nat) : Decidable (keysInjAt st d1 d2) :=
  match h1 : st.get d1, h2 : st.get d2 with
  | some (.Evaluated e1), some (.Evaluated e2) =>
    decidable_of_iff (e1.key = e2.key → d1 = d2) (by unfold keysInjAt; rw [h1, h2])
  | some (.Evaluated _), some (.Unevaluated _ _) =>
    decidable_of_iff True (by unfold keysInjAt; rw [h1, h2])
  | some (.Evaluated _), none =>
    decidable_of_iff True (by unfold keysInjAt; rw [h1, h2])
  | some (.Unevaluated _ _), _ =>
    decidable_of_iff True (by unfold keysInjAt; rw [h1])
  | none, _ =>
    decidable_of_iff True (by unfold keysInjAt; rw [h1])

/-- Frame: `remove_tree` only touches the fragment slots it visits and only
the resolution entries of the keys carried by visited fragments. -/
theorem removeTreeL_frame {V : Type} :
    ∀ (fuel : Nat) (l : List Nat) (s s' : EvalState V) (ds : List Nat),
    subtreeList fuel s.store l = some ds → ds.Nodup →
    (∀ d ∈ ds, selfIdxAt s.store d) →
    removeTreeL fuel l s = .ok s' →
    (∀ x, x ∉ ds → s'.store.get x = s.store.get x) ∧
    (∀ k, (∀ d ∈ ds, keyNotAt s.store k d) →
      lookupA s'.tree.keyToIdx k = lookupA s.tree.keyToIdx k) := by
  intro fuel
  induction fuel with
  | zero =>
    intro l s s' ds hsub _ _ h
    cases l with
    | nil =>
      cases h
      exact ⟨fun x _ => rfl, fun k _ => rfl⟩
    | cons f rest => cases h
  | succ fuel ih =>
    intro l s s' ds hsub hnd hself h
    cases l with
    | nil =>
      cases h
      cases hsub
      exact ⟨fun x _ => rfl, fun k _ => rfl⟩
    | cons f rest =>
      unfold subtreeList at hsub
      unfold removeTreeL at h
      cases hg : s.store.get f with
      | none => rw [hg] at hsub; cases hsub
      | some mf =>
        rw [hg] at hsub h
        cases mf with
        | Unevaluated _ _ => cases hsub
        | Evaluated e =>
          dsimp only at hsub h
          cases ha : subtreeList fuel s.store e.children with
          | none => rw [ha] at hsub; cases hsub
          | some a =>
            rw [ha] at hsub
            cases hb : subtreeList fuel s.store rest with
            | none => rw [hb] at hsub; cases hsub
            | some b =>
              rw [hb] at hsub
              dsimp only at hsub
              have hds : ds = f :: (a ++ b) := by cases hsub; rfl
              subst hds
              cases h1 : removeTreeL fuel e.children s with
              | error er => rw [h1] at h; cases h
              | ok s1 =>
                rw [h1] at h
                rw [List.nodup_cons] at hnd
                obtain ⟨hfab, hab⟩ := hnd
                rw [List.nodup_append] at hab
                obtain ⟨hna, hnb, hdis⟩ := hab
                have hfa : f ∉ a := fun hx => hfab (List.mem_append_left _ hx)
                have hfb : f ∉ b := fun hx => hfab (List.mem_append_right _ hx)
                have hselff : e.store_idx = f := by
                  have := hself f (by simp)
                  unfold selfIdxAt at this
                  rw [hg] at this
                  exact this
                have hFa := ih e.children s s1 a ha hna
                  (fun d hd => hself d (by simp [hd])) h1
                have hstep : ∀ x, x ≠ f →
                    (s1.store.removeFrag e.store_idx).get x = s1.store.get x := by
                  intro x hx
                  rw [hselff]
                  exact removeFrag_get_ne _ _ _ hx
                have hagb : ∀ x ∈ b,
                    (s1.store.removeFrag e.store_idx).get x = s.store.get x := by
                  intro x hx
                  have hxf : x ≠ f := fun hc => hfb (hc ▸ hx)
                  have hxa : x ∉ a := fun hc => hdis hc hx
                  rw [hstep x hxf]
                  exact hFa.1 x hxa
                have hb2 : subtreeList fuel (s1.store.removeFrag e.store_idx) rest = some b :=
                  subtreeList_congr rest s.store _ b hb hagb
                have hself2 : ∀ d ∈ b, selfIdxAt (s1.store.removeFrag e.store_idx) d := by
                  intro d hd
                  unfold selfIdxAt
                  rw [hagb d hd]
                  have := hself d (by simp [hd])
                  unfold selfIdxAt at this
                  exact this
                have hFb := ih rest
                  ({ s1 with
                      tree := s1.tree.remove_widget e.key,
                      layout := s1.layout.removeNode e.layout_idx,
                      keyMap := s1.keyMap.filter (· != e.key),
                      store := s1.store.removeFrag e.store_idx } : EvalState V)
                  s' b hb2 hnb hself2 h
                constructor
                · intro x hx
                  simp only [List.mem_cons, List.mem_append, not_or] at hx
                  obtain ⟨hxf, hxa, hxb⟩ := hx
                  rw [hFb.1 x hxb]
                  show (s1.store.removeFrag e.store_idx).get x = s.store.get x
                  rw [hstep x hxf]
                  exact hFa.1 x hxa
                · intro k hkn
                  have hek : e.key ≠ k := by
                    have := hkn f (by simp)
                    unfold keyNotAt at this
                    rw [hg] at this
                    exact this
                  have hknb : ∀ d ∈ b, keyNotAt (s1.store.removeFrag e.store_idx) k d := by
                    intro d hd
                    unfold keyNotAt
                    rw [hagb d hd]
                    have := hkn d (by simp [hd])
                    unfold keyNotAt at this
                    exact this
                  rw [hFb.2 k hknb]
                  show lookupA (s1.tree.remove_widget e.key).keyToIdx k = _
                  rw [lookupA_remove_widget_ne _ _ _ (Ne.symm hek)]
                  exact hFa.2 k (fun d hd => hkn d (by simp [hd]))

/-- What full removal guarantees for one torn-down fragment `d` (read in the
original state): its key's resolution entries and state cells are released,
its layout node and identity-registry entry removed, its arena slot freed. -/
def goneProps {V : Type} (sOrig sFin : EvalState V) (d : Nat) : Prop :=
  ∃ e, sOrig.store.get d = some (.Evaluated e) ∧
    keyGone sFin.tree e.key ∧
    (∀ slot idx, lookup2 sOrig.tree.keyToIdx e.key slot = some idx →
      cellGone sFin.tree idx) ∧
    sFin.layout.getNode e.layout_idx = none ∧
    e.key ∉ sFin.keyMap ∧
    sFin.store.get e.store_idx = none

theorem goneProps_mono {V : Type} {sO t u : EvalState V} {d : Nat}
    (hm : RemovalMono t u) (h : goneProps sO t d) : goneProps sO u d := by
  obtain ⟨e, he, hk, hc, hn, hkm, hs⟩ := h
  exact ⟨e, he, hm.1 _ hk, fun slot idx hl => hm.2.1 _ (hc slot idx hl),
    hm.2.2.1 _ hn, hm.2.2.2.1 _ hkm, hm.2.2.2.2 _ hs⟩

/-- Main removal lemma: every fragment in the visited subtree ends up fully
released. -/
theorem removeTreeL_releases {V : Type} :
    ∀ (fuel : Nat) (l : List Nat) (s s' : EvalState V) (ds : List Nat),
    subtreeList fuel s.store l = some ds → ds.Nodup →
    (∀ d1 ∈ ds, ∀ d2 ∈ ds, keysInjAt s.store d1 d2) →
    (∀ d ∈ ds, selfIdxAt s.store d) →
    removeTreeL fuel l s = .ok s' →
    ∀ d ∈ ds, goneProps s s' d := by
  intro fuel
  induction fuel with
  | zero =>
    intro l s s' ds hsub _ _ _ h
    cases l with
    | nil => cases hsub; intro d hd; cases hd
    | cons f rest => cases h
  | succ fuel ih =>
    intro l s s' ds hsub hnd hinj hself h
    cases l with
    | nil => cases hsub; intro d hd; cases hd
    | cons f rest =>
      unfold subtreeList at hsub
      unfold removeTreeL at h
      cases hg : s.store.get f with
      | none => rw [hg] at hsub; cases hsub
      | some mf =>
        rw [hg] at hsub h
        cases mf with
        | Unevaluated _ _ => cases hsub
        | Evaluated e =>
          dsimp only at hsub h
          cases ha : subtreeList fuel s.store e.children with
          | none => rw [ha] at hsub; cases hsub
          | some a =>
            rw [ha] at hsub
            cases hb : subtreeList fuel s.store rest with
            | none => rw [hb] at hsub; cases hsub
            | some b =>
              rw [hb] at hsub
              dsimp only at hsub
              have hds : ds = f :: (a ++ b) := by cases hsub; rfl
              subst hds
              cases h1 : removeTreeL fuel e.children s with
              | error er => rw [h1] at h; cases h
              | ok s1 =>
                rw [h1] at h
                rw [List.nodup_cons] at hnd
                obtain ⟨hfab, hab⟩ := hnd
                rw [List.nodup_append] at hab
                obtain ⟨hna, hnb, hdis⟩ := hab
                have hfa : f ∉ a := fun hx => hfab (List.mem_append_left _ hx)
                have hfb : f ∉ b := fun hx => hfab (List.mem_append_right _ hx)
                have hselff : e.store_idx = f := by
                  have := hself f (by simp)
                  unfold selfIdxAt at this
                  rw [hg] at this
                  exact this
                have hFa := removeTreeL_frame fuel e.children s s1 a ha hna
                  (fun d hd => hself d (by simp [hd])) h1
                have hstep : ∀ x, x ≠ f →
                    (s1.store.removeFrag e.store_idx).get x = s1.store.get x := by
                  intro x hx
                  rw [hselff]
                  exact removeFrag_get_ne _ _ _ hx
                have hagb : ∀ x ∈ b,
                    (s1.store.removeFrag e.store_idx).get x = s.store.get x := by
                  intro x hx
                  have hxf : x ≠ f := fun hc => hfb (hc ▸ hx)
                  have hxa : x ∉ a := fun hc => hdis hc hx
                  rw [hstep x hxf]
                  exact hFa.1 x hxa
                -- the keys of the children subtree differ from e.key
                have hkna : ∀ d ∈ a, keyNotAt s.store e.key d := by
                  intro d hd
                  unfold keyNotAt
                  cases hgd : s.store.get d with
                  | none => trivial
                  | some mfd =>
                    cases mfd with
                    | Unevaluated _ _ => trivial
                    | Evaluated ed =>
                      intro hkeq
                      have := hinj d (by simp [hd]) f (by simp)
                      unfold keysInjAt at this
                      rw [hgd, hg] at this
                      exact hfa ((this hkeq) ▸ hd)
                have hkeyA : lookupA s1.tree.keyToIdx e.key = lookupA s.tree.keyToIdx e.key :=
                  hFa.2 e.key hkna
                -- gone facts for f itself after the tear-down step
                set s2 : EvalState V :=
                  { s1 with
                      tree := s1.tree.remove_widget e.key,
                      layout := s1.layout.removeNode e.layout_idx,
                      keyMap := s1.keyMap.filter (· != e.key),
                      store := s1.store.removeFrag e.store_idx } with hs2
                have hmono2 : RemovalMono s2 s' := removeTreeL_mono fuel rest s2 s' h
                have hgonef : goneProps s s2 f := by
                  refine ⟨e, hg, keyGone_remove_widget_self _ _, ?_, ?_, ?_, ?_⟩
                  · intro slot idx hl
                    unfold lookup2 at hl
                    cases hin : lookupA s.tree.keyToIdx e.key with
                    | none => rw [hin] at hl; cases hl
                    | some inner =>
                      rw [hin] at hl
                      have hin1 : lookupA s1.tree.keyToIdx e.key = some inner := by
                        rw [hkeyA]; exact hin
                      exact cellGone_remove_widget_of_mem s1.tree e.key idx inner hin1
                        (lookupA_mem_values inner slot idx hl)
                  · exact getNode_removeNode_self _ _
                  · exact not_mem_filter_self _ _
                  · exact removeFrag_get_self _ _
                intro d hd
                rw [List.mem_cons] at hd
                cases hd with
                | inl hd =>
                  subst hd
                  exact goneProps_mono hmono2 hgonef
                | inr hd =>
                  rw [List.mem_append] at hd
                  cases hd with
                  | inl hd =>
                    have hrel := ih e.children s s1 a ha hna
                      (fun d1 h1m d2 h2m => hinj d1 (by simp [h1m]) d2 (by simp [h2m]))
                      (fun d1 h1m => hself d1 (by simp [h1m])) h1
                    exact goneProps_mono
                      (removalMono_trans (removalMono_step s1 e) hmono2)
                      (hrel d hd)
                  | inr hd =>
                    have hb2 : subtreeList fuel s2.store rest = some b :=
                      subtreeList_congr rest s.store _ b hb hagb
                    have hinj2 : ∀ d1 ∈ b, ∀ d2 ∈ b, keysInjAt s2.store d1 d2 := by
                      intro d1 h1m d2 h2m
                      unfold keysInjAt
                      show (match s2.store.get d1, s2.store.get d2 with
                        | some (.Evaluated e1), some (.Evaluated e2) =>
                          e1.key = e2.key → d1 = d2
                        | _, _ => True)
                      rw [show s2.store.get d1 = s.store.get d1 from hagb d1 h1m,
                        show s2.store.get d2 = s.store.get d2 from hagb d2 h2m]
                      have := hinj d1 (by simp [h1m]) d2 (by simp [h2m])
                      unfold keysInjAt at this
                      exact this
                    have hself2 : ∀ d1 ∈ b, selfIdxAt s2.store d1 := by
                      intro d1 h1m
                      unfold selfIdxAt
                      rw [show s2.store.get d1 = s.store.get d1 from hagb d1 h1m]
                      have := hself d1 (by simp [h1m])
                      unfold selfIdxAt at this
                      exact this
                    have hrel := ih rest s2 s' b hb2 hnb hinj2 hself2 h
                    obtain ⟨ed, hed, hk, hc, hn, hkm, hst⟩ := hrel d hd
                    refine ⟨ed, ?_, hk, ?_, hn, hkm, hst⟩
                    · rw [← hagb d hd]; exact hed
                    · -- transfer the resolution map from s to s2
                      have hknaA : ∀ d1 ∈ a, keyNotAt s.store ed.key d1 := by
                        intro d1 h1m
                        unfold keyNotAt
                        cases hgd : s.store.get d1 with
                        | none => trivial
                        | some mfd =>
                          cases mfd with
                          | Unevaluated _ _ => trivial
                          | Evaluated e1 =>
                            intro hkeq
                            have hi := hinj d1 (by simp [h1m]) d (by simp [hd])
                            unfold keysInjAt at hi
                            rw [hgd, ← hagb d hd, hed] at hi
                            have hd1d : d1 = d := hi hkeq
                            exact hdis (hd1d ▸ h1m) hd
                      have hedk : ed.key ≠ e.key := by
                        have hi := hinj d (by simp [hd]) f (by simp)
                        unfold keysInjAt at hi
                        rw [← hagb d hd, hed, hg] at hi
                        intro hc2
                        have := hi hc2
                        exact hfb (this ▸ hd)
                      have htrans : lookupA s2.tree.keyToIdx ed.key =
                          lookupA s.tree.keyToIdx ed.key := by
                        show lookupA (s1.tree.remove_widget e.key).keyToIdx ed.key = _
                        rw [lookupA_remove_widget_ne _ _ _ hedk]
                        exact hFa.2 ed.key hknaA
                      intro slot idx hl
                      refine hc slot idx ?_
                      unfold lookup2 at hl ⊢
                      rw [htrans]
                      exact hl

theorem initHook_fresh {V : Type} (t : PatchedTree V) (k slot : Nat) (v : V)
    (h : keyGone t k) :
    ((t.initHook (k, slot) v).1).data.get ((t.initHook (k, slot) v).2).2 =
      some ([], v) := by
  unfold PatchedTree.initHook
  have hnone : lookup2 t.keyToIdx k slot = none := by
    unfold lookup2
    rw [h]
  simp only [hnone]
  simpa using FreeList.get_add_self t.data ([], v)

/-- C4: removing an evaluated fragment `f` (`remove_tree`) releases, for `f`
and every descendant `d` in its subtree: the state cells registered under the
fragment's key (the resolution map entry disappears and every resolved cell
is freed), the layout node, the identity-registry entry, and the fragment
arena slot; afterwards `initialize` on any former hook key of a removed
fragment allocates a fresh cell with an empty dependent set and the new value
rather than returning stale state. Hypotheses: the subtree listing exists
(enough fuel, tree-shaped store), fragments are distinct, keys are pairwise
distinct, and each evaluated fragment records its own slot as `store_idx`. -/
theorem remove_tree_releases {V : Type} (fuel : Nat) (s s' : EvalState V) (f : Nat)
    (ds : List Nat)
    (hsub : subtreeList fuel s.store [f] = some ds)
    (hnd : ds.Nodup)
    (hinj : ∀ d1 ∈ ds, ∀ d2 ∈ ds, keysInjAt s.store d1 d2)
    (hself : ∀ d ∈ ds, selfIdxAt s.store d)
    (hrun : removeTreeL fuel [f] s = .ok s') :
    ∀ d ∈ ds, ∃ e, s.store.get d = some (.Evaluated e) ∧
      keyGone s'.tree e.key ∧
      (∀ slot idx, lookup2 s.tree.keyToIdx e.key slot = some idx →
        cellGone s'.tree idx) ∧
      s'.layout.getNode e.layout_idx = none ∧
      e.key ∉ s'.keyMap ∧
      s'.store.get e.store_idx = none ∧
      s'.store.removedCheck e.store_idx = true ∧
      (∀ slot v, ((s'.tree.initHook (e.key, slot) v).1).data.get
        ((s'.tree.initHook (e.key, slot) v).2).2 = some ([], v)) := by
  intro d hd
  obtain ⟨e, he, hk, hc, hn, hkm, hst⟩ :=
    removeTreeL_releases fuel [f] s s' ds hsub hnd hinj hself hrun d hd
  exact ⟨e, he, hk, hc, hn, hkm, hst,
    (removedCheck_iff_get_none s'.store e.store_idx).mpr hst,
    fun slot v => initHook_fresh s'.tree e.key slot v hk⟩

/-- Concrete two-fragment tree for the C4 witness: parent 0 (key 10, one
state cell at arena index 0) with child 1 (key 11, one state cell at 1). -/
def c4State : EvalState Nat :=
  { tree := { data := ⟨[(true, ([], 5)), (true, ([], 6))], []⟩,
              keyToIdx := [(10, [(0, 0)]), (11, [(0, 1)])],
              patch := [] },
    store := ⟨⟨[(true, ⟨some (.Evaluated ⟨10, 0, 0, 0, [1]⟩), none⟩),
               (true, ⟨some (.Evaluated ⟨11, 1, 1, 1, []⟩), none⟩)], []⟩, []⟩,
    layout := ⟨[some ⟨0, none, false, []⟩, some ⟨1, none, false, []⟩]⟩,
    keyMap := [10, 11],
    log := [] }

/-- The state after removing fragment 0 of `c4State`. -/
def c4After : EvalState Nat :=
  match removeTreeL 3 [0] c4State with
  | .ok s => s
  | .error _ => c4State

/-- Witness for C4 on the concrete two-fragment tree. -/
theorem remove_tree_releases_witness :
    (subtreeList 3 c4State.store [0] = some [0, 1] ∧
      ([0, 1] : List Nat).Nodup ∧
      (∀ d1 ∈ ([0, 1] : List Nat), ∀ d2 ∈ ([0, 1] : List Nat),
        keysInjAt c4State.store d1 d2) ∧
      (∀ d ∈ ([0, 1] : List Nat), selfIdxAt c4State.store d) ∧
      removeTreeL 3 [0] c4State = .ok c4After) ∧
    (∀ d ∈ ([0, 1] : List Nat), ∃ e, c4State.store.get d = some (.Evaluated e) ∧
      keyGone c4After.tree e.key ∧
      (∀ slot idx, lookup2 c4State.tree.keyToIdx e.key slot = some idx →
        cellGone c4After.tree idx) ∧
      c4After.layout.getNode e.layout_idx = none ∧
      e.key ∉ c4After.keyMap ∧
      c4After.store.get e.store_idx = none ∧
      c4After.store.removedCheck e.store_idx = true ∧
      (∀ slot v, ((c4After.tree.initHook (e.key, slot) v).1).data.get
        ((c4After.tree.initHook (e.key, slot) v).2).2 = some ([], v))) :=
  ⟨⟨by rfl, by decide, by decide, by decide, by rfl⟩,
   remove_tree_releases 3 c4State c4After 0 [0, 1] (by rfl) (by decide)
     (by decide) (by decide) (by rfl)⟩
